import Mathlib

/-!
Verification of the recursive-descent HTML and CSS parsers of the
learning-browser-engine repository (src/html_parser.rs, src/css_parser.rs,
src/dom.rs).

Modelling conventions:
* The Rust input `String` is modelled as a `List Char`; the parser's byte
  offset `position : usize` is modelled as a `Nat` byte offset into the UTF-8
  encoding of that character list.  `remAt input pos` recovers the list of
  characters of the slice `input[pos..]` when `pos` is a valid character
  boundary (`none` models the boundary panics of Rust slicing).
* Every Rust panic or failed `assert!` is modelled as `Except.error` with an
  error kind identifying the failing operation.
* Source loops are modelled by fuel-indexed structural recursion; each public
  wrapper instantiates the fuel with `rem p + 1` (one more than the number of
  unconsumed bytes), and adequacy lemmas prove the fuel is never exhausted,
  which is the termination argument of the source ("every repetition step
  either advances the cursor or observes end-of-input or a terminator").
* The cursor primitives (`next_char`, `eof`, `consume_char`, `consume_while`,
  `consume_whitespace`) are duplicated verbatim in html_parser.rs and
  css_parser.rs; they are defined once here and shared by both parsers.
-/

namespace Browser

/-- Error kinds: one constructor per distinct failure site of the source
(each Rust panic or failed assertion), plus `outOfFuel`, the artifact of the
fuel-indexed embedding of source loops (shown unreachable). -/
inductive Err where
  | outOfFuel
  | sliceError
  | unexpectedEndOfInput
  | unexpectedCharacter
  | mismatchedTag
  | unrecognizedUnit
  | invalidNumericLiteral
deriving Repr, DecidableEq

/-- The parser state shared by both parsers: `struct Parser { position: usize, input: String }`.
The spec calls this component the Cursor. -/
structure Cursor where
  position : Nat
  input : List Char
deriving Repr, DecidableEq

/-- Byte length of the UTF-8 encoding of a character list (Rust `String::len`). -/
def byteLen : List Char → Nat
  | [] => 0
  | c :: cs => c.utf8Size + byteLen cs

/-- Characters of the slice `input[pos..]`: `some` of the remaining characters
when `pos` is a character boundary (possibly the end), `none` when `pos` is
inside a multi-byte character or past the end (Rust slicing panics there). -/
def remAt : List Char → Nat → Option (List Char)
  | l, 0 => some l
  | [], _ => none
  | c :: cs, n => if n < c.utf8Size then none else remAt cs (n - c.utf8Size)

/-- Unconsumed byte count of a cursor. -/
def rem (p : Cursor) : Nat := byteLen p.input - p.position

/-- `fn eof(&self) -> bool { self.position >= self.input.len() }` -/
def eof (p : Cursor) : Bool := decide (byteLen p.input ≤ p.position)

/-- `fn next_char(&self) -> char { self.input[self.position..].chars().next().unwrap() }`:
slicing panics off a character boundary, `unwrap` panics at end of input. -/
def next_char (p : Cursor) : Except Err Char :=
  match remAt p.input p.position with
  | none => .error .sliceError
  | some [] => .error .unexpectedEndOfInput
  | some (c :: _) => .ok c

/-- `fn starts_with(&self, s: &str) -> bool { self.input[self.position..].starts_with(s) }` -/
def starts_with (p : Cursor) (s : List Char) : Except Err Bool :=
  match remAt p.input p.position with
  | none => .error .sliceError
  | some l => .ok (s.isPrefixOf l)

/-- `fn consume_char(&mut self) -> char`: reads the character at the current
offset via `char_indices`, then advances by the offset of the *second*
character of the slice, with `unwrap_or((1, ' '))` when the slice holds a
single character — i.e. by the first character's full UTF-8 width when another
character follows, but by exactly 1 byte when the character is the last one. -/
def consume_char (p : Cursor) : Except Err (Char × Cursor) :=
  match remAt p.input p.position with
  | none => .error .sliceError
  | some [] => .error .unexpectedEndOfInput
  | some (c :: rest) =>
    let next_position := match rest with
      | [] => 1
      | _ :: _ => c.utf8Size
    .ok (c, { p with position := p.position + next_position })

/-- Fueled body of `fn consume_while<F>(&mut self, test: F) -> String`:
`while !self.eof() && test(self.next_char()) { result.push(self.consume_char()); }`. -/
def consume_while_fuel : Nat → (Char → Bool) → Cursor → Except Err (List Char × Cursor)
  | 0, _, _ => .error .outOfFuel
  | fuel + 1, test, p =>
    if eof p then .ok ([], p)
    else match next_char p with
      | .error e => .error e
      | .ok c =>
        if test c then
          match consume_char p with
          | .error e => .error e
          | .ok (c2, p') =>
            match consume_while_fuel fuel test p' with
            | .error e => .error e
            | .ok (l, p'') => .ok (c2 :: l, p'')
        else .ok ([], p)

/-- `consume_while`, with sufficient fuel (shown adequate below). -/
def consume_while (test : Char → Bool) (p : Cursor) : Except Err (String × Cursor) :=
  (consume_while_fuel (rem p + 1) test p).map (fun r => (String.mk r.1, r.2))

/-- Rust `char::is_whitespace`: the Unicode `White_Space` property. -/
def rustIsWhitespace (c : Char) : Bool :=
  decide ((9 ≤ c.toNat ∧ c.toNat ≤ 13) ∨ c.toNat = 32 ∨ c.toNat = 133 ∨ c.toNat = 160 ∨
    c.toNat = 5760 ∨ (8192 ≤ c.toNat ∧ c.toNat ≤ 8202) ∨ c.toNat = 8232 ∨ c.toNat = 8233 ∨
    c.toNat = 8239 ∨ c.toNat = 8287 ∨ c.toNat = 12288)

/-- `fn consume_whitespace(&mut self) { self.consume_while(char::is_whitespace); }` -/
def consume_whitespace (p : Cursor) : Except Err Cursor :=
  (consume_while rustIsWhitespace p).map (·.2)

deriving instance DecidableEq for Except

/-! The DOM model (src/dom.rs). -/

namespace dom

/-- `pub type AttrMap = HashMap<String, String>;` modelled as an association
list with unique keys; `insertAttr` mirrors `HashMap::insert` (the value of an
existing key is replaced — last write wins; the source map is unordered, here
bindings are kept in first-insertion order). -/
abbrev AttrMap : Type := List (String × String)

def insertAttr (m : AttrMap) (k v : String) : AttrMap :=
  if m.any (fun kv => kv.1 == k) then
    m.map (fun kv => if kv.1 == k then (k, v) else kv)
  else m ++ [(k, v)]

/-- `pub struct ElementData { tag_name: String, attributes: AttrMap }` -/
structure ElementData where
  tag_name : String
  attributes : AttrMap
deriving DecidableEq

/-- `pub enum NodeType { Element(ElementData), Text(String) }` -/
inductive NodeType where
  | Element (data : ElementData)
  | Text (s : String)
deriving DecidableEq

/-- `pub struct Node { children: Vec<Node>, node_type: NodeType }` -/
inductive Node where
  | mk (children : List Node) (node_type : NodeType)

def Node.children : Node → List Node
  | .mk children _ => children

def Node.node_type : Node → NodeType
  | .mk _ node_type => node_type

/-- `pub fn text(data: String) -> Node` -/
def text (data : String) : Node := .mk [] (.Text data)

/-- `pub fn elem(name: String, attrs: AttrMap, children: Vec<Node>) -> Node` -/
def elem (name : String) (attrs : AttrMap) (children : List Node) : Node :=
  .mk children (.Element ⟨name, attrs⟩)

end dom

/-! The HTML parser (src/html_parser.rs). -/

namespace Html

/-- `fn parse_tag_name(&mut self) -> String`: maximal run of ASCII letters and digits. -/
def parse_tag_name (p : Cursor) : Except Err (String × Cursor) :=
  consume_while (fun c => decide (('a' ≤ c ∧ c ≤ 'z') ∨ ('A' ≤ c ∧ c ≤ 'Z') ∨ ('0' ≤ c ∧ c ≤ '9'))) p

/-- `fn parse_text(&mut self) -> dom::Node { dom::text(self.consume_while(|c| c != '<')) }` -/
def parse_text (p : Cursor) : Except Err (dom.Node × Cursor) :=
  (consume_while (fun c => decide (c ≠ '<')) p).map (fun r => (dom.text r.1, r.2))

/-- `fn parse_attr_value(&mut self) -> String`: the opening quote must be `"` or
`/` (a failed assertion otherwise), the value is every character before the
next occurrence of the same character, which is then consumed. -/
def parse_attr_value (p : Cursor) : Except Err (String × Cursor) := do
  let (quote, p1) ← consume_char p
  if quote = '"' ∨ quote = '/' then do
    let (value, p2) ← consume_while (fun c => decide (c ≠ quote)) p1
    let (c2, p3) ← consume_char p2
    if c2 = quote then pure (value, p3) else .error .unexpectedCharacter
  else .error .unexpectedCharacter

/-- `fn parse_attrs(&mut self) -> (String, String)`: a single `name="value"` pair. -/
def parse_attrs (p : Cursor) : Except Err ((String × String) × Cursor) := do
  let (name, p1) ← parse_tag_name p
  let (c, p2) ← consume_char p1
  if c = '=' then do
    let (value, p3) ← parse_attr_value p2
    pure ((name, value), p3)
  else .error .unexpectedCharacter

/-- Fueled body of `fn parse_attributes(&mut self) -> dom::AttrMap`:
`loop { consume_whitespace; if next_char == '>' break; insert(parse_attrs()) }`. -/
def parse_attributes_fuel : Nat → dom.AttrMap → Cursor → Except Err (dom.AttrMap × Cursor)
  | 0, _, _ => .error .outOfFuel
  | fuel + 1, attributes, p => do
    let p1 ← consume_whitespace p
    let c ← next_char p1
    if c = '>' then pure (attributes, p1)
    else do
      let (nv, p2) ← parse_attrs p1
      parse_attributes_fuel fuel (dom.insertAttr attributes nv.1 nv.2) p2

/-- `parse_attributes`, with sufficient fuel (shown adequate below). -/
def parse_attributes (p : Cursor) : Except Err (dom.AttrMap × Cursor) :=
  parse_attributes_fuel (rem p + 1) {} p

/-- Body of `fn parse_element(&mut self) -> dom::Node`, parametrized by the
child-sequence parser `pn` (the source calls `self.parse_nodes()` there):
opening `<` tag attrs `>`, children, then `<` `/` matching tag name `>`;
the mismatched-closing-tag assertion becomes the `mismatchedTag` error. -/
def parse_element_core (pn : Cursor → Except Err (List dom.Node × Cursor)) (p : Cursor) :
    Except Err (dom.Node × Cursor) := do
  let (c1, p1) ← consume_char p
  if c1 = '<' then do
    let (tag_name, p2) ← parse_tag_name p1
    let (attrs, p3) ← parse_attributes p2
    let (c2, p4) ← consume_char p3
    if c2 = '>' then do
      let (children, p5) ← pn p4
      let (c3, p6) ← consume_char p5
      if c3 = '<' then do
        let (c4, p7) ← consume_char p6
        if c4 = '/' then do
          let (tag2, p8) ← parse_tag_name p7
          if tag2 = tag_name then do
            let (c5, p9) ← consume_char p8
            if c5 = '>' then pure (dom.elem tag_name attrs children, p9)
            else .error .unexpectedCharacter
          else .error .mismatchedTag
        else .error .unexpectedCharacter
      else .error .unexpectedCharacter
    else .error .unexpectedCharacter
  else .error .unexpectedCharacter

/-- Body of `fn parse_node(&mut self) -> dom::Node`:
`match next_char { '<' => parse_element, _ => parse_text }`. -/
def parse_node_core (pn : Cursor → Except Err (List dom.Node × Cursor)) (p : Cursor) :
    Except Err (dom.Node × Cursor) := do
  let c ← next_char p
  if c = '<' then parse_element_core pn p else parse_text p

/-- Fueled body of `fn parse_nodes(&mut self) -> Vec<dom::Node>`:
`loop { consume_whitespace; if eof | starts_with("</") break; push(parse_node) }`.
Note the non-short-circuiting `|`: `starts_with` is evaluated even when `eof` is true. -/
def parse_nodes_fuel : Nat → Cursor → Except Err (List dom.Node × Cursor)
  | 0, _ => .error .outOfFuel
  | fuel + 1, p => do
    let p1 ← consume_whitespace p
    let sw ← starts_with p1 ['<', '/']
    if eof p1 || sw then pure ([], p1)
    else do
      let (n, p2) ← parse_node_core (parse_nodes_fuel fuel) p1
      let (ns, p3) ← parse_nodes_fuel fuel p2
      pure (n :: ns, p3)

/-- `parse_nodes`, with sufficient fuel (shown adequate below). -/
def parse_nodes (p : Cursor) : Except Err (List dom.Node × Cursor) :=
  parse_nodes_fuel (rem p + 1) p

/-- `pub fn parse(source: String) -> dom::Node`: parses the top-level node
sequence; a single resulting node is returned itself (`nodes.swap_remove(0)`),
otherwise an `html` element is created wrapping all the nodes. -/
def parse (source : String) : Except Err dom.Node := do
  let (nodes, _) ← parse_nodes { position := 0, input := source.data }
  match nodes with
  | [n] => pure n
  | _ => pure (dom.elem "html" {} nodes)

end Html

/-! The CSS parser (src/css_parser.rs). -/

namespace Css

/-- `pub type Specificity = (usize, usize, usize);` -/
abbrev Specificity : Type := Nat × Nat × Nat

/-- `struct SimpleSelector { tag_name: Option<String>, id: Option<String>, class: Vec<String> }` -/
structure SimpleSelector where
  tag_name : Option String
  id : Option String
  «class» : List String
deriving Repr, DecidableEq

/-- `enum Selector { Simple(SimpleSelector) }` -/
inductive Selector where
  | Simple (s : SimpleSelector)
deriving Repr, DecidableEq

/-- `pub fn specificity(&self) -> Specificity`: the triple
`(id.iter().count(), class.len(), tag_name.iter().count())` —
`Option::iter().count()` is 1 when the option is occupied and 0 otherwise. -/
def Selector.specificity : Selector → Specificity
  | .Simple simple => (simple.id.toList.length, simple.«class».length, simple.tag_name.toList.length)

/-- `enum Unit { Px }` -/
inductive Unit where
  | Px
deriving Repr, DecidableEq

/-- `struct Color { r: u8, g: u8, b: u8, a: u8 }` (each channel a value < 256). -/
structure Color where
  r : Nat
  g : Nat
  b : Nat
  a : Nat
deriving Repr, DecidableEq

/-- `enum Value { Keyword(String), Length(f32, Unit), ColorValue(Color) }`.
The numeric payload of `Length` is modelled as the exact rational value of the
parsed decimal literal; the source stores the nearest `f32` (for the literals
exercised by the claims, such as `10`, the two agree exactly). -/
inductive Value where
  | Keyword (s : String)
  | Length (v : ℚ) (u : Unit)
  | ColorValue (c : Color)
deriving Repr, DecidableEq

/-- `struct Declaration { name: String, value: Value }` -/
structure Declaration where
  name : String
  value : Value
deriving Repr, DecidableEq

/-- `struct Rule { selectors: Vec<Selector>, declarations: Vec<Declaration> }` -/
structure Rule where
  selectors : List Selector
  declarations : List Declaration
deriving Repr, DecidableEq

/-- `pub struct Stylesheet { rules: Vec<Rule> }` -/
structure Stylesheet where
  rules : List Rule
deriving Repr, DecidableEq

/-- `fn valid_identifier_char(c: char) -> bool`: ASCII letters, digits, `-`, `_`. -/
def valid_identifier_char (c : Char) : Bool :=
  decide (('a' ≤ c ∧ c ≤ 'z') ∨ ('A' ≤ c ∧ c ≤ 'Z') ∨ ('0' ≤ c ∧ c ≤ '9') ∨ c = '-' ∨ c = '_')

/-- `fn parse_identifier(&mut self) -> String { self.consume_while(valid_identifier_char) }` -/
def parse_identifier (p : Cursor) : Except Err (String × Cursor) :=
  consume_while valid_identifier_char p

/-- Decimal-digit test used by `parse_value` (`'0'..='9'`). -/
def isAsciiDigit (c : Char) : Bool := decide ('0' ≤ c ∧ c ≤ '9')

/-- Rust `f32::from_str` restricted to strings over digits and `.` (the only
characters `parse_float` consumes): accepted iff the string holds at least one
digit and at most one dot; the value is returned as the exact decimal rational
(the source rounds to the nearest `f32`). -/
def parse_f32 (l : List Char) : Option ℚ :=
  let intPart := l.takeWhile (fun c => decide (c ≠ '.'))
  let rest := l.dropWhile (fun c => decide (c ≠ '.'))
  match rest with
  | [] =>
    if intPart ≠ [] ∧ intPart.all isAsciiDigit then
      some ((intPart.foldl (fun acc c => 10 * acc + (c.toNat - 48)) 0 : Nat) : ℚ)
    else none
  | _ :: frac =>
    if (intPart ≠ [] ∨ frac ≠ []) ∧ intPart.all isAsciiDigit ∧ frac.all isAsciiDigit then
      some (((intPart.foldl (fun acc c => 10 * acc + (c.toNat - 48)) 0 : Nat) : ℚ) +
        ((frac.foldl (fun acc c => 10 * acc + (c.toNat - 48)) 0 : Nat) : ℚ) / ((10 : ℚ) ^ frac.length))
    else none

/-- `fn parse_float(&mut self) -> f32`: consume digits and dots, then
`s.parse().unwrap()` (an invalid literal is a panic, hence an error here). -/
def parse_float (p : Cursor) : Except Err (ℚ × Cursor) := do
  let (s, p1) ← consume_while (fun c => isAsciiDigit c || decide (c = '.')) p
  match parse_f32 s.data with
  | some x => pure (x, p1)
  | none => .error .invalidNumericLiteral

/-- Rust `to_ascii_lowercase`: ASCII uppercase letters are shifted to lowercase,
every other character is unchanged. -/
def to_ascii_lowercase (s : String) : String :=
  String.mk (s.data.map (fun c => if 'A' ≤ c ∧ c ≤ 'Z' then Char.ofNat (c.toNat + 32) else c))

/-- `fn parse_unit(&mut self) -> Unit`: the identifier, lowercased, must equal
`"px"`; any other unit is the `Unrecognized unit` panic. -/
def parse_unit (p : Cursor) : Except Err (Unit × Cursor) := do
  let (id, p1) ← parse_identifier p
  if to_ascii_lowercase id = "px" then pure (.Px, p1)
  else .error .unrecognizedUnit

/-- `fn parse_length(&mut self) -> Value { Value::Length(self.parse_float(), self.parse_unit()) }` -/
def parse_length (p : Cursor) : Except Err (Value × Cursor) := do
  let (v, p1) ← parse_float p
  let (u, p2) ← parse_unit p1
  pure (.Length v u, p2)

/-- Hexadecimal digit value (`0-9`, `a-f`, `A-F`). -/
def hexVal (c : Char) : Option Nat :=
  if '0' ≤ c ∧ c ≤ '9' then some (c.toNat - 48)
  else if 'a' ≤ c ∧ c ≤ 'f' then some (c.toNat - 87)
  else if 'A' ≤ c ∧ c ≤ 'F' then some (c.toNat - 55)
  else none

/-- Rust `u8::from_str_radix(s, 16)` for a two-byte string: an optional leading
`+` then hexadecimal digits; two digits give `16*h1 + h2` (at most 0xff, so
never out of `u8` range), and a `+` followed by one digit gives that digit.
The unsigned `from_str_radix` accepts no `-` sign at all (`"-0"` included), so
a leading `-` falls through to the digit case and fails as a non-digit. -/
def from_str_radix_16_u8 : List Char → Option Nat
  | ['+', d] => hexVal d
  | [d1, d2] => do
    let a ← hexVal d1
    let b ← hexVal d2
    pure (16 * a + b)
  | _ => none

/-- `fn parse_hex_pair(&mut self) -> u8`: takes the two-byte slice
`&self.input[self.position..self.position + 2]`, advances the offset by 2, and
parses the slice as base-16.  Byte-window analysis of the slice: two one-byte
characters form the normal case; a single two-byte character is a valid slice
that can never be hexadecimal (a parse panic); a window ending inside a
character or past the end of input is a slicing panic. -/
def parse_hex_pair (p : Cursor) : Except Err (Nat × Cursor) :=
  match remAt p.input p.position with
  | none => .error .sliceError
  | some [] => .error .sliceError
  | some [c1] =>
    if c1.utf8Size = 1 then .error .sliceError
    else if c1.utf8Size = 2 then .error .invalidNumericLiteral
    else .error .sliceError
  | some (c1 :: c2 :: _) =>
    if c1.utf8Size = 1 then
      if c2.utf8Size = 1 then
        match from_str_radix_16_u8 [c1, c2] with
        | some v => .ok (v, ⟨p.position + 2, p.input⟩)
        | none => .error .invalidNumericLiteral
      else .error .sliceError
    else if c1.utf8Size = 2 then .error .invalidNumericLiteral
    else .error .sliceError

/-- `fn parse_color(&mut self) -> Value`: `#`, then three hex pairs for r, g, b,
with the alpha channel fixed at 255. -/
def parse_color (p : Cursor) : Except Err (Value × Cursor) := do
  let (c, p1) ← consume_char p
  if c = '#' then do
    let (r, p2) ← parse_hex_pair p1
    let (g, p3) ← parse_hex_pair p2
    let (b, p4) ← parse_hex_pair p3
    pure (.ColorValue ⟨r, g, b, 255⟩, p4)
  else .error .unexpectedCharacter

/-- `fn parse_value(&mut self) -> Value`: a digit starts a length, `#` starts a
color, anything else is a keyword identifier. -/
def parse_value (p : Cursor) : Except Err (Value × Cursor) := do
  let c ← next_char p
  if isAsciiDigit c then parse_length p
  else if c = '#' then parse_color p
  else do
    let (id, p1) ← parse_identifier p
    pure (.Keyword id, p1)

/-- `fn parse_declaration(&mut self) -> Declaration`: `name : value ;`. -/
def parse_declaration (p : Cursor) : Except Err (Declaration × Cursor) := do
  let (property_name, p1) ← parse_identifier p
  let p2 ← consume_whitespace p1
  let (c1, p3) ← consume_char p2
  if c1 = ':' then do
    let p4 ← consume_whitespace p3
    let (value, p5) ← parse_value p4
    let p6 ← consume_whitespace p5
    let (c2, p7) ← consume_char p6
    if c2 = ';' then pure (⟨property_name, value⟩, p7)
    else .error .unexpectedCharacter
  else .error .unexpectedCharacter

/-- Fueled body of the loop of `fn parse_declarations(&mut self)`:
`loop { consume_whitespace; if next_char == the closing brace, consume it and
stop; else push(parse_declaration) }`. -/
def parse_declarations_loop_fuel : Nat → Cursor → Except Err (List Declaration × Cursor)
  | 0, _ => .error .outOfFuel
  | fuel + 1, p => do
    let p1 ← consume_whitespace p
    let c ← next_char p1
    if c = '\x7d' then do
      let (_, p2) ← consume_char p1
      pure ([], p2)
    else do
      let (d, p2) ← parse_declaration p1
      let (ds, p3) ← parse_declarations_loop_fuel fuel p2
      pure (d :: ds, p3)

/-- The declaration-list loop, with sufficient fuel (shown adequate below). -/
def parse_declarations_loop (p : Cursor) : Except Err (List Declaration × Cursor) :=
  parse_declarations_loop_fuel (rem p + 1) p

/-- `fn parse_declarations(&mut self) -> Vec<Declaration>`: the opening brace
is asserted first, then the loop runs. -/
def parse_declarations (p : Cursor) : Except Err (List Declaration × Cursor) := do
  let (c, p1) ← consume_char p
  if c = '\x7b' then parse_declarations_loop p1
  else .error .unexpectedCharacter

/-- Fueled body of the loop of `fn parse_simple_selector(&mut self)`, with the
partially built selector threaded as an accumulator: `#` reads an id, `.`
appends a class, `*` is consumed and discarded, an identifier character reads
a tag name, anything else (or end of input) ends the loop. -/
def parse_simple_selector_fuel : Nat → SimpleSelector → Cursor → Except Err (SimpleSelector × Cursor)
  | 0, _, _ => .error .outOfFuel
  | fuel + 1, selector, p =>
    if eof p then pure (selector, p)
    else do
      let c ← next_char p
      if c = '#' then do
        let (_, p1) ← consume_char p
        let (id, p2) ← parse_identifier p1
        parse_simple_selector_fuel fuel { selector with id := some id } p2
      else if c = '.' then do
        let (_, p1) ← consume_char p
        let (cls, p2) ← parse_identifier p1
        parse_simple_selector_fuel fuel { selector with «class» := selector.«class» ++ [cls] } p2
      else if c = '*' then do
        let (_, p1) ← consume_char p
        parse_simple_selector_fuel fuel selector p1
      else if valid_identifier_char c then do
        let (t, p1) ← parse_identifier p
        parse_simple_selector_fuel fuel { selector with tag_name := some t } p1
      else pure (selector, p)

/-- `parse_simple_selector`, with sufficient fuel, starting from the empty
selector `SimpleSelector { tag_name: None, id: None, class: Vec::new() }`. -/
def parse_simple_selector (p : Cursor) : Except Err (SimpleSelector × Cursor) :=
  parse_simple_selector_fuel (rem p + 1) ⟨none, none, []⟩ p

/-- Lexicographic order on specificity triples: the ordering of Rust's derived
`Ord` for `(usize, usize, usize)`, as used by the comparator
`|a, b| b.specificity().cmp(&a.specificity())`. -/
def specificity_le (x y : Specificity) : Prop :=
  x.1 < y.1 ∨ (x.1 = y.1 ∧ (x.2.1 < y.2.1 ∨ (x.2.1 = y.2.1 ∧ x.2.2 ≤ y.2.2)))

instance (x y : Specificity) : Decidable (specificity_le x y) := by
  unfold specificity_le
  infer_instance

/-- Strict version of the specificity order ("outranks"). -/
def specificity_lt (x y : Specificity) : Prop :=
  specificity_le x y ∧ ¬ specificity_le y x

/-- Stable insertion for the descending-specificity sort: `a` is placed before
the first element whose specificity is ≤ its own, hence after every earlier
element of equal specificity. -/
def orderedInsertBySpec (a : Selector) : List Selector → List Selector
  | [] => [a]
  | b :: l =>
    if specificity_le b.specificity a.specificity then a :: b :: l
    else b :: orderedInsertBySpec a l

/-- `selectors.sort_by(|a, b| b.specificity().cmp(&a.specificity()))`: a stable
sort by specificity descending.  A stable sort is extensionally unique, so the
stable insertion sort is a faithful model of Rust's (stable) `sort_by`. -/
def sortBySpecDesc : List Selector → List Selector
  | [] => []
  | a :: l => orderedInsertBySpec a (sortBySpecDesc l)

/-- Fueled body of the loop of `fn parse_selectors(&mut self)`:
one simple selector per iteration; `,` continues, a brace stops, anything else
is the `Unexpected character in selector list` panic. -/
def parse_selectors_loop_fuel : Nat → Cursor → Except Err (List Selector × Cursor)
  | 0, _ => .error .outOfFuel
  | fuel + 1, p => do
    let (simple, p1) ← parse_simple_selector p
    let p2 ← consume_whitespace p1
    let c ← next_char p2
    if c = ',' then do
      let (_, p3) ← consume_char p2
      let p4 ← consume_whitespace p3
      let (rest, p5) ← parse_selectors_loop_fuel fuel p4
      pure (Selector.Simple simple :: rest, p5)
    else if c = '\x7b' then pure ([Selector.Simple simple], p2)
    else .error .unexpectedCharacter

/-- The selector-list loop in source order, with sufficient fuel. -/
def parse_selectors_loop (p : Cursor) : Except Err (List Selector × Cursor) :=
  parse_selectors_loop_fuel (rem p + 1) p

/-- `fn parse_selectors(&mut self) -> Vec<Selector>`: the loop, then
`selectors.sort_by(|a, b| b.specificity().cmp(&a.specificity()))`. -/
def parse_selectors (p : Cursor) : Except Err (List Selector × Cursor) := do
  let (selectors, p') ← parse_selectors_loop p
  pure (sortBySpecDesc selectors, p')

/-- `fn parse_rule(&mut self) -> Rule`: selectors then declarations. -/
def parse_rule (p : Cursor) : Except Err (Rule × Cursor) := do
  let (selectors, p1) ← parse_selectors p
  let (declarations, p2) ← parse_declarations p1
  pure (⟨selectors, declarations⟩, p2)

/-- Fueled body of `fn parse_rules(&mut self) -> Vec<Rule>`:
`loop { consume_whitespace; if eof break; push(parse_rule) }`. -/
def parse_rules_fuel : Nat → Cursor → Except Err (List Rule × Cursor)
  | 0, _ => .error .outOfFuel
  | fuel + 1, p => do
    let p1 ← consume_whitespace p
    if eof p1 then pure ([], p1)
    else do
      let (r, p2) ← parse_rule p1
      let (rs, p3) ← parse_rules_fuel fuel p2
      pure (r :: rs, p3)

/-- `parse_rules`, with sufficient fuel (shown adequate below). -/
def parse_rules (p : Cursor) : Except Err (List Rule × Cursor) :=
  parse_rules_fuel (rem p + 1) p

/-- `pub fn parse(source: String) -> Stylesheet`. -/
def parse (source : String) : Except Err Stylesheet := do
  let (rules, _) ← parse_rules { position := 0, input := source.data }
  pure ⟨rules⟩

end Css

/-! Cursor lemmas: facts about the shared scanning primitives. -/

@[simp] theorem ok_bind {α β : Type} (a : α) (f : α → Except Err β) :
    (Except.ok a >>= f) = f a := rfl

@[simp] theorem error_bind {α β : Type} (e : Err) (f : α → Except Err β) :
    ((Except.error e : Except Err α) >>= f) = .error e := rfl

@[simp] theorem pure_except {α : Type} (a : α) : (pure a : Except Err α) = .ok a := rfl

theorem remAt_some_byteLen {l r : List Char} {n : Nat} (h : remAt l n = some r) :
    n + byteLen r = byteLen l := by
  induction l generalizing n with
  | nil =>
    cases n with
    | zero => simp [remAt] at h; subst h; simp [byteLen]
    | succ n => simp [remAt] at h
  | cons c cs ih =>
    cases n with
    | zero => simp [remAt] at h; subst h; omega
    | succ n =>
      simp only [remAt] at h
      split at h
      · exact absurd h (by simp)
      · have h1 := ih h
        have hle : c.utf8Size ≤ n + 1 := by omega
        simp only [byteLen]
        omega

theorem remAt_byteLen (l : List Char) : remAt l (byteLen l) = some [] := by
  induction l with
  | nil => rfl
  | cons c cs ih =>
    have hpos := Char.utf8Size_pos c
    simp only [byteLen]
    cases h : c.utf8Size + byteLen cs with
    | zero => omega
    | succ m =>
      simp only [remAt]
      split
      · omega
      · have : m + 1 - c.utf8Size = byteLen cs := by omega
        rw [this]; exact ih

theorem remAt_comp {l m : List Char} {n : Nat} (h : remAt l n = some m) (k : Nat) :
    remAt l (n + k) = remAt m k := by
  induction l generalizing n with
  | nil =>
    cases n with
    | zero => simp only [remAt, Option.some.injEq] at h; subst h; simp
    | succ n => simp [remAt] at h
  | cons c cs ih =>
    cases n with
    | zero =>
      simp only [remAt, Option.some.injEq] at h
      subst h
      simp
    | succ n =>
      simp only [remAt] at h
      split at h
      · exact absurd h (by simp)
      · have h1 := ih h
        have hle : c.utf8Size ≤ n + 1 := by omega
        have heq : n + 1 + k = (n + k) + 1 := by omega
        rw [heq]
        simp only [remAt]
        split
        · omega
        · have : n + k + 1 - c.utf8Size = n + 1 - c.utf8Size + k := by omega
          rw [this]
          exact h1

theorem remAt_cons_self (c : Char) (r : List Char) :
    remAt (c :: r) c.utf8Size = some r := by
  have hpos := Char.utf8Size_pos c
  cases h : c.utf8Size with
  | zero => omega
  | succ m =>
    simp only [remAt]
    split
    · omega
    · have : m + 1 - c.utf8Size = 0 := by omega
      rw [this]
      simp [remAt]

theorem remAt_cons_mid {c : Char} (r : List Char) {k : Nat} (hk0 : 0 < k)
    (hk : k < c.utf8Size) : remAt (c :: r) k = none := by
  cases k with
  | zero => omega
  | succ m =>
    simp only [remAt]
    split
    · rfl
    · omega

theorem remAt_next {l r : List Char} {c : Char} {n : Nat}
    (h : remAt l n = some (c :: r)) : remAt l (n + c.utf8Size) = some r := by
  rw [remAt_comp h]
  exact remAt_cons_self c r

theorem remAt_mid {l r : List Char} {c : Char} {n k : Nat}
    (h : remAt l n = some (c :: r)) (hk0 : 0 < k) (hk : k < c.utf8Size) :
    remAt l (n + k) = none := by
  rw [remAt_comp h]
  exact remAt_cons_mid r hk0 hk

theorem consume_char_of_none {p : Cursor} (h : remAt p.input p.position = none) :
    consume_char p = .error .sliceError := by
  unfold consume_char
  rw [h]

theorem consume_char_of_empty {p : Cursor} (h : remAt p.input p.position = some []) :
    consume_char p = .error .unexpectedEndOfInput := by
  unfold consume_char
  rw [h]

theorem consume_char_of_last {p : Cursor} {c : Char}
    (h : remAt p.input p.position = some [c]) :
    consume_char p = .ok (c, ⟨p.position + 1, p.input⟩) := by
  unfold consume_char
  rw [h]

theorem consume_char_of_more {p : Cursor} {c d : Char} {r : List Char}
    (h : remAt p.input p.position = some (c :: d :: r)) :
    consume_char p = .ok (c, ⟨p.position + c.utf8Size, p.input⟩) := by
  unfold consume_char
  rw [h]

theorem next_char_of_none {p : Cursor} (h : remAt p.input p.position = none) :
    next_char p = .error .sliceError := by
  unfold next_char
  rw [h]

theorem next_char_of_empty {p : Cursor} (h : remAt p.input p.position = some []) :
    next_char p = .error .unexpectedEndOfInput := by
  unfold next_char
  rw [h]

theorem next_char_of_cons {p : Cursor} {c : Char} {r : List Char}
    (h : remAt p.input p.position = some (c :: r)) : next_char p = .ok c := by
  unfold next_char
  rw [h]

theorem consume_char_ok {p : Cursor} {c : Char} {p' : Cursor}
    (h : consume_char p = .ok (c, p')) :
    p'.input = p.input ∧ p.position < p'.position ∧ p'.position ≤ byteLen p.input := by
  cases hr : remAt p.input p.position with
  | none => rw [consume_char_of_none hr] at h; exact Except.noConfusion h
  | some l =>
    cases l with
    | nil => rw [consume_char_of_empty hr] at h; exact Except.noConfusion h
    | cons d rest =>
      have hb := remAt_some_byteLen hr
      have hpos := Char.utf8Size_pos d
      cases rest with
      | nil =>
        rw [consume_char_of_last hr] at h
        simp only [Except.ok.injEq, Prod.mk.injEq] at h
        obtain ⟨rfl, rfl⟩ := h
        refine ⟨rfl, Nat.lt_succ_self _, ?_⟩
        show p.position + 1 ≤ byteLen p.input
        simp only [byteLen] at hb
        omega
      | cons e rest' =>
        rw [consume_char_of_more hr] at h
        simp only [Except.ok.injEq, Prod.mk.injEq] at h
        obtain ⟨rfl, rfl⟩ := h
        refine ⟨rfl, by show p.position < p.position + d.utf8Size; omega, ?_⟩
        show p.position + d.utf8Size ≤ byteLen p.input
        have hpe := Char.utf8Size_pos e
        simp only [byteLen] at hb
        omega

theorem consume_char_rem_lt {p : Cursor} {c : Char} {p' : Cursor}
    (h : consume_char p = .ok (c, p')) : rem p' < rem p := by
  obtain ⟨hi, hlt, hle⟩ := consume_char_ok h
  unfold rem
  rw [hi]
  omega

theorem consume_char_ne_oof (p : Cursor) : consume_char p ≠ .error .outOfFuel := by
  cases hr : remAt p.input p.position with
  | none => rw [consume_char_of_none hr]; simp
  | some l =>
    cases l with
    | nil => rw [consume_char_of_empty hr]; simp
    | cons c rest =>
      cases rest with
      | nil => rw [consume_char_of_last hr]; simp
      | cons d r => rw [consume_char_of_more hr]; simp

theorem next_char_ne_oof (p : Cursor) : next_char p ≠ .error .outOfFuel := by
  cases hr : remAt p.input p.position with
  | none => rw [next_char_of_none hr]; simp
  | some l =>
    cases l with
    | nil => rw [next_char_of_empty hr]; simp
    | cons c rest => rw [next_char_of_cons hr]; simp

theorem starts_with_ne_oof (p : Cursor) (s : List Char) :
    starts_with p s ≠ .error .outOfFuel := by
  unfold starts_with
  cases hr : remAt p.input p.position with
  | none => simp
  | some l => simp

theorem consume_while_fuel_ne_oof {fuel : Nat} {p : Cursor} (hf : rem p < fuel)
    (test : Char → Bool) : consume_while_fuel fuel test p ≠ .error .outOfFuel := by
  induction fuel generalizing p with
  | zero => omega
  | succ fuel ih =>
    simp only [consume_while_fuel]
    split
    · simp
    · split
      · rename_i e heq
        intro hx
        injection hx with hx'
        rw [hx'] at heq
        exact next_char_ne_oof p heq
      · rename_i c heq
        split
        · split
          · rename_i e heq2
            intro hx
            injection hx with hx'
            rw [hx'] at heq2
            exact consume_char_ne_oof p heq2
          · rename_i c2 p' heq2
            have hlt := consume_char_rem_lt heq2
            split
            · rename_i e heq3
              intro hx
              injection hx with hx'
              rw [hx'] at heq3
              exact ih (p := p') (by omega) heq3
            · simp
        · simp

theorem consume_while_fuel_ok {fuel : Nat} {test : Char → Bool} {p : Cursor}
    {l : List Char} {p' : Cursor} (h : consume_while_fuel fuel test p = .ok (l, p')) :
    p'.input = p.input ∧ p.position ≤ p'.position := by
  induction fuel generalizing p l with
  | zero => exact Except.noConfusion h
  | succ fuel ih =>
    simp only [consume_while_fuel] at h
    split at h
    · simp only [Except.ok.injEq, Prod.mk.injEq] at h
      obtain ⟨rfl, rfl⟩ := h
      exact ⟨rfl, le_refl _⟩
    · split at h
      · exact Except.noConfusion h
      · rename_i c heq
        split at h
        · split at h
          · exact Except.noConfusion h
          · rename_i c2 p1 heq2
            split at h
            · exact Except.noConfusion h
            · rename_i l2 p2 heq3
              simp only [Except.ok.injEq, Prod.mk.injEq] at h
              obtain ⟨rfl, rfl⟩ := h
              obtain ⟨hi, hlt, hle⟩ := consume_char_ok heq2
              obtain ⟨hi2, hle2⟩ := ih heq3
              exact ⟨hi2.trans hi, by omega⟩
        · simp only [Except.ok.injEq, Prod.mk.injEq] at h
          obtain ⟨rfl, rfl⟩ := h
          exact ⟨rfl, le_refl _⟩

@[simp] theorem map_except_ok {α β : Type} (f : α → β) (a : α) :
    Except.map f (Except.ok a : Except Err α) = .ok (f a) := rfl

@[simp] theorem map_except_error {α β : Type} (f : α → β) (e : Err) :
    Except.map f (Except.error e : Except Err α) = .error e := rfl

theorem consume_while_ne_oof (test : Char → Bool) (p : Cursor) :
    consume_while test p ≠ .error .outOfFuel := by
  cases hw : consume_while_fuel (rem p + 1) test p with
  | error e =>
    unfold consume_while
    rw [hw, map_except_error]
    intro hx
    injection hx with hx'
    rw [hx'] at hw
    exact @consume_while_fuel_ne_oof (rem p + 1) p (by omega) test hw
  | ok r =>
    unfold consume_while
    rw [hw, map_except_ok]
    simp

theorem consume_while_ok {test : Char → Bool} {p : Cursor} {s : String} {p' : Cursor}
    (h : consume_while test p = .ok (s, p')) :
    p'.input = p.input ∧ p.position ≤ p'.position := by
  cases hw : consume_while_fuel (rem p + 1) test p with
  | error e =>
    unfold consume_while at h
    rw [hw, map_except_error] at h
    exact Except.noConfusion h
  | ok r =>
    unfold consume_while at h
    rw [hw, map_except_ok] at h
    obtain ⟨l, q⟩ := r
    simp only [Except.ok.injEq, Prod.mk.injEq] at h
    obtain ⟨rfl, rfl⟩ := h
    exact consume_while_fuel_ok hw

theorem consume_whitespace_ne_oof (p : Cursor) :
    consume_whitespace p ≠ .error .outOfFuel := by
  cases hw : consume_while rustIsWhitespace p with
  | error e =>
    unfold consume_whitespace
    rw [hw, map_except_error]
    intro hx
    injection hx with hx'
    rw [hx'] at hw
    exact consume_while_ne_oof rustIsWhitespace p hw
  | ok r =>
    unfold consume_whitespace
    rw [hw, map_except_ok]
    simp

theorem consume_whitespace_ok {p p' : Cursor} (h : consume_whitespace p = .ok p') :
    p'.input = p.input ∧ p.position ≤ p'.position := by
  cases hw : consume_while rustIsWhitespace p with
  | error e =>
    unfold consume_whitespace at h
    rw [hw, map_except_error] at h
    exact Except.noConfusion h
  | ok r =>
    obtain ⟨s, q⟩ := r
    unfold consume_whitespace at h
    rw [hw, map_except_ok] at h
    simp only [Except.ok.injEq] at h
    subst h
    exact consume_while_ok hw

theorem byteLen_append (a b : List Char) : byteLen (a ++ b) = byteLen a + byteLen b := by
  induction a with
  | nil => simp [byteLen]
  | cons c t ih => simp [byteLen, ih, Nat.add_assoc]

theorem length_le_byteLen (l : List Char) : l.length ≤ byteLen l := by
  induction l with
  | nil => simp [byteLen]
  | cons c t ih =>
    have := Char.utf8Size_pos c
    simp only [List.length_cons, byteLen]
    omega

theorem next_char_ok_inv {p : Cursor} {c : Char} (h : next_char p = .ok c) :
    ∃ r, remAt p.input p.position = some (c :: r) := by
  cases hr : remAt p.input p.position with
  | none => rw [next_char_of_none hr] at h; exact Except.noConfusion h
  | some l =>
    cases l with
    | nil => rw [next_char_of_empty hr] at h; exact Except.noConfusion h
    | cons d r =>
      rw [next_char_of_cons hr] at h
      injection h with h'
      exact ⟨r, by rw [h']⟩

theorem eof_false_of_cons {p : Cursor} {c : Char} {r : List Char}
    (hr : remAt p.input p.position = some (c :: r)) : eof p = false := by
  have hb := remAt_some_byteLen hr
  have := Char.utf8Size_pos c
  simp only [byteLen] at hb
  simp only [eof, decide_eq_false_iff_not, not_le]
  omega

theorem consume_char_next_char {p : Cursor} {c : Char} {p' : Cursor}
    (h : consume_char p = .ok (c, p')) : next_char p = .ok c := by
  cases hr : remAt p.input p.position with
  | none => rw [consume_char_of_none hr] at h; exact Except.noConfusion h
  | some l =>
    cases l with
    | nil => rw [consume_char_of_empty hr] at h; exact Except.noConfusion h
    | cons d rest =>
      cases rest with
      | nil =>
        rw [consume_char_of_last hr] at h
        injection h with h'
        have hd : d = c := congrArg Prod.fst h'
        rw [next_char_of_cons hr, hd]
      | cons e t =>
        rw [consume_char_of_more hr] at h
        injection h with h'
        have hd : d = c := congrArg Prod.fst h'
        rw [next_char_of_cons hr, hd]

theorem consume_while_fuel_strict {fuel : Nat} {test : Char → Bool} {p : Cursor}
    {c : Char} {r l : List Char} {p' : Cursor}
    (hr : remAt p.input p.position = some (c :: r)) (ht : test c = true)
    (h : consume_while_fuel fuel test p = .ok (l, p')) : p.position < p'.position := by
  cases fuel with
  | zero => exact Except.noConfusion h
  | succ fuel =>
    simp only [consume_while_fuel, eof_false_of_cons hr, Bool.false_eq_true, if_false,
      next_char_of_cons hr, ht, if_true] at h
    split at h
    · exact Except.noConfusion h
    · rename_i c2 p1 heq2
      split at h
      · exact Except.noConfusion h
      · rename_i l2 p2 heq3
        simp only [Except.ok.injEq, Prod.mk.injEq] at h
        obtain ⟨rfl, rfl⟩ := h
        obtain ⟨hi1, hl1, _⟩ := @consume_char_ok p c2 p1 heq2
        obtain ⟨hi2, hl2⟩ := @consume_while_fuel_ok fuel test p1 l2 p2 heq3
        omega

theorem consume_while_strict {test : Char → Bool} {p : Cursor} {c : Char} {s : String}
    {p' : Cursor} (hn : next_char p = .ok c) (ht : test c = true)
    (h : consume_while test p = .ok (s, p')) : p.position < p'.position := by
  obtain ⟨r, hr⟩ := next_char_ok_inv hn
  cases hw : consume_while_fuel (rem p + 1) test p with
  | error e =>
    unfold consume_while at h
    rw [hw, map_except_error] at h
    exact Except.noConfusion h
  | ok x =>
    obtain ⟨l, q⟩ := x
    unfold consume_while at h
    rw [hw, map_except_ok] at h
    simp only [Except.ok.injEq, Prod.mk.injEq] at h
    obtain ⟨rfl, rfl⟩ := h
    exact consume_while_fuel_strict hr ht hw

theorem consume_while_fuel_all {fuel : Nat} {test : Char → Bool} {p : Cursor}
    {l : List Char} {p' : Cursor} (h : consume_while_fuel fuel test p = .ok (l, p')) :
    ∀ x ∈ l, test x = true := by
  induction fuel generalizing p l with
  | zero => exact Except.noConfusion h
  | succ fuel ih =>
    simp only [consume_while_fuel] at h
    split at h
    · simp only [Except.ok.injEq, Prod.mk.injEq] at h
      obtain ⟨rfl, rfl⟩ := h
      intro x hx
      exact absurd hx (List.not_mem_nil x)
    · split at h
      · exact Except.noConfusion h
      · rename_i c heq
        split at h
        · rename_i htc
          split at h
          · exact Except.noConfusion h
          · rename_i c2 p1 heq2
            split at h
            · exact Except.noConfusion h
            · rename_i l2 p2 heq3
              simp only [Except.ok.injEq, Prod.mk.injEq] at h
              obtain ⟨rfl, rfl⟩ := h
              intro x hx
              rcases List.mem_cons.mp hx with rfl | hx2
              · have hcc := consume_char_next_char heq2
                rw [heq] at hcc
                injection hcc with hcc'
                rw [hcc'] at htc
                exact htc
              · exact ih heq3 x hx2
        · simp only [Except.ok.injEq, Prod.mk.injEq] at h
          obtain ⟨rfl, rfl⟩ := h
          intro x hx
          exact absurd hx (List.not_mem_nil x)

theorem consume_while_all {test : Char → Bool} {p : Cursor} {s : String} {p' : Cursor}
    (h : consume_while test p = .ok (s, p')) : ∀ x ∈ s.data, test x = true := by
  cases hw : consume_while_fuel (rem p + 1) test p with
  | error e =>
    unfold consume_while at h
    rw [hw, map_except_error] at h
    exact Except.noConfusion h
  | ok x =>
    obtain ⟨l, q⟩ := x
    unfold consume_while at h
    rw [hw, map_except_ok] at h
    simp only [Except.ok.injEq, Prod.mk.injEq] at h
    obtain ⟨rfl, rfl⟩ := h
    exact consume_while_fuel_all hw

theorem consume_while_fuel_split {fuel : Nat} {test : Char → Bool} {p : Cursor}
    {l₁ r : List Char} {c : Char}
    (hr : remAt p.input p.position = some (l₁ ++ c :: r))
    (h1 : ∀ x ∈ l₁, test x = true) (hc : test c = false) (hf : l₁.length < fuel) :
    consume_while_fuel fuel test p = .ok (l₁, ⟨p.position + byteLen l₁, p.input⟩) := by
  induction l₁ generalizing p fuel with
  | nil =>
    cases fuel with
    | zero => simp at hf
    | succ fuel =>
      simp only [List.nil_append] at hr
      simp only [consume_while_fuel, eof_false_of_cons hr, Bool.false_eq_true, if_false,
        next_char_of_cons hr, hc, Bool.false_eq_true, if_false]
      simp [byteLen]
  | cons d l₁' ih =>
    cases fuel with
    | zero => simp at hf
    | succ fuel =>
      simp only [List.cons_append] at hr
      have hcc : consume_char p = .ok (d, ⟨p.position + d.utf8Size, p.input⟩) := by
        cases l₁' with
        | nil => exact consume_char_of_more hr
        | cons e t => exact consume_char_of_more hr
      have hr1 : remAt p.input (p.position + d.utf8Size) = some (l₁' ++ c :: r) :=
        remAt_next hr
      have htd : test d = true := h1 d (List.mem_cons_self d _)
      have ihr : consume_while_fuel fuel test ⟨p.position + d.utf8Size, p.input⟩ =
          .ok (l₁', ⟨p.position + d.utf8Size + byteLen l₁', p.input⟩) := ih hr1
        (fun x hx => h1 x (List.mem_cons_of_mem d hx))
        (by simp only [List.length_cons] at hf; omega)
      have harith : p.position + d.utf8Size + byteLen l₁' = p.position + byteLen (d :: l₁') := by
        simp only [byteLen]
        omega
      simp only [consume_while_fuel, eof_false_of_cons hr, Bool.false_eq_true, if_false,
        next_char_of_cons hr, htd, if_true, hcc, ihr, harith]

theorem consume_while_fuel_all_consumed {fuel : Nat} {test : Char → Bool} {p : Cursor}
    {l : List Char} (hr : remAt p.input p.position = some l)
    (h1 : ∀ x ∈ l, test x = true)
    (hlast : ∀ c, l.getLast? = some c → c.utf8Size = 1) (hf : l.length < fuel) :
    consume_while_fuel fuel test p = .ok (l, ⟨p.position + byteLen l, p.input⟩) := by
  induction l generalizing p fuel with
  | nil =>
    cases fuel with
    | zero => simp at hf
    | succ fuel =>
      have hb := remAt_some_byteLen hr
      simp only [byteLen] at hb
      have heof : eof p = true := by
        simp only [eof, decide_eq_true_eq]
        omega
      simp only [consume_while_fuel, heof, if_true]
      simp [byteLen]
  | cons c rest ih =>
    cases fuel with
    | zero => simp at hf
    | succ fuel =>
      have htc : test c = true := h1 c (List.mem_cons_self c _)
      cases rest with
      | nil =>
        have hsz : c.utf8Size = 1 := hlast c rfl
        have hcc := consume_char_of_last hr
        have hr1 : remAt p.input (p.position + 1) = some [] := by
          rw [show p.position + 1 = p.position + c.utf8Size by omega]
          exact remAt_next hr
        have ihr : consume_while_fuel fuel test ⟨p.position + 1, p.input⟩ =
            .ok ([], ⟨p.position + 1 + byteLen ([] : List Char), p.input⟩) := ih hr1
          (fun x hx => absurd hx (List.not_mem_nil x))
          (fun e he => Option.noConfusion he)
          (by simp only [List.length_cons, List.length_nil] at hf ⊢; omega)
        have harith : p.position + 1 + byteLen ([] : List Char) = p.position + byteLen [c] := by
          simp only [byteLen]
          omega
        simp only [consume_while_fuel, eof_false_of_cons hr, Bool.false_eq_true, if_false,
          next_char_of_cons hr, htc, if_true, hcc, ihr, harith]
      | cons d t =>
        have hcc := consume_char_of_more hr
        have hr1 : remAt p.input (p.position + c.utf8Size) = some (d :: t) :=
          remAt_next hr
        have ihr : consume_while_fuel fuel test ⟨p.position + c.utf8Size, p.input⟩ =
            .ok (d :: t, ⟨p.position + c.utf8Size + byteLen (d :: t), p.input⟩) := ih hr1
          (fun x hx => h1 x (List.mem_cons_of_mem c hx))
          (fun e he => hlast e (List.getLast?_cons_cons.trans he))
          (by simp only [List.length_cons] at hf ⊢; omega)
        have harith : p.position + c.utf8Size + byteLen (d :: t) = p.position + byteLen (c :: d :: t) := by
          simp only [byteLen]
          omega
        simp only [consume_while_fuel, eof_false_of_cons hr, Bool.false_eq_true, if_false,
          next_char_of_cons hr, htc, if_true, hcc, ihr, harith]

theorem consume_while_fuel_off_edge {fuel : Nat} {test : Char → Bool} {p : Cursor}
    {l : List Char} {c : Char} (hr : remAt p.input p.position = some l)
    (h1 : ∀ x ∈ l, test x = true) (hlast : l.getLast? = some c)
    (hsize : 2 ≤ c.utf8Size) (hf : l.length < fuel) :
    consume_while_fuel fuel test p = .error .sliceError := by
  induction l generalizing p fuel with
  | nil => exact Option.noConfusion hlast
  | cons c1 rest ih =>
    cases fuel with
    | zero => simp at hf
    | succ fuel =>
      have htc : test c1 = true := h1 c1 (List.mem_cons_self c1 _)
      cases rest with
      | nil =>
        have hc1 : c1 = c := by
          have h' : some c1 = some c := hlast
          injection h'
        subst hc1
        have hcc := consume_char_of_last hr
        have hb := remAt_some_byteLen hr
        simp only [byteLen] at hb
        have heof1 : eof (⟨p.position + 1, p.input⟩ : Cursor) = false := by
          simp only [eof, decide_eq_false_iff_not, not_le]
          omega
        have hr1 : remAt p.input (p.position + 1) = none :=
          remAt_mid hr (by omega) (by omega)
        have hn1 : next_char (⟨p.position + 1, p.input⟩ : Cursor) = .error .sliceError :=
          next_char_of_none hr1
        cases fuel with
        | zero => simp at hf
        | succ fuel2 =>
          simp only [consume_while_fuel, eof_false_of_cons hr, Bool.false_eq_true, if_false,
            next_char_of_cons hr, htc, if_true, hcc, heof1, hn1]
      | cons d t =>
        have hcc := consume_char_of_more hr
        have hr1 : remAt p.input (p.position + c1.utf8Size) = some (d :: t) :=
          remAt_next hr
        have ihr : consume_while_fuel fuel test ⟨p.position + c1.utf8Size, p.input⟩ =
            .error .sliceError := ih hr1
          (fun x hx => h1 x (List.mem_cons_of_mem c1 hx))
          (List.getLast?_cons_cons.symm.trans hlast)
          (by simp only [List.length_cons] at hf ⊢; omega)
        simp only [consume_while_fuel, eof_false_of_cons hr, Bool.false_eq_true, if_false,
          next_char_of_cons hr, htc, if_true, hcc, ihr]

theorem rem_mono {p p' : Cursor} (hi : p'.input = p.input)
    (hp : p.position ≤ p'.position) : rem p' ≤ rem p := by
  unfold rem
  rw [hi]
  omega

theorem consume_while_fuel_rem_strict {fuel : Nat} {test : Char → Bool} {p : Cursor}
    {c : Char} {r l : List Char} {p' : Cursor}
    (hr : remAt p.input p.position = some (c :: r)) (ht : test c = true)
    (h : consume_while_fuel fuel test p = .ok (l, p')) : rem p' < rem p := by
  cases fuel with
  | zero => exact Except.noConfusion h
  | succ fuel =>
    simp only [consume_while_fuel, eof_false_of_cons hr, Bool.false_eq_true, if_false,
      next_char_of_cons hr, ht, if_true] at h
    split at h
    · exact Except.noConfusion h
    · rename_i c2 p1 heq2
      split at h
      · exact Except.noConfusion h
      · rename_i l2 p2 heq3
        simp only [Except.ok.injEq, Prod.mk.injEq] at h
        obtain ⟨rfl, rfl⟩ := h
        have h1 := consume_char_rem_lt heq2
        obtain ⟨hi2, hl2⟩ := @consume_while_fuel_ok fuel test p1 l2 p2 heq3
        have h2 := rem_mono hi2 hl2
        omega

theorem consume_while_rem_strict {test : Char → Bool} {p : Cursor} {c : Char} {s : String}
    {p' : Cursor} (hn : next_char p = .ok c) (ht : test c = true)
    (h : consume_while test p = .ok (s, p')) : rem p' < rem p := by
  obtain ⟨r, hr⟩ := next_char_ok_inv hn
  cases hw : consume_while_fuel (rem p + 1) test p with
  | error e =>
    unfold consume_while at h
    rw [hw, map_except_error] at h
    exact Except.noConfusion h
  | ok x =>
    obtain ⟨l, q⟩ := x
    unfold consume_while at h
    rw [hw, map_except_ok] at h
    simp only [Except.ok.injEq, Prod.mk.injEq] at h
    obtain ⟨rfl, rfl⟩ := h
    exact consume_while_fuel_rem_strict hr ht hw

/-! Progress and fuel-adequacy lemmas for the HTML parser. -/

namespace Html

theorem parse_tag_name_ne_oof (p : Cursor) : parse_tag_name p ≠ .error .outOfFuel :=
  consume_while_ne_oof _ p

theorem parse_tag_name_ok {p : Cursor} {s : String} {p' : Cursor}
    (h : parse_tag_name p = .ok (s, p')) : p'.input = p.input ∧ p.position ≤ p'.position :=
  consume_while_ok h

theorem parse_text_ne_oof (p : Cursor) : parse_text p ≠ .error .outOfFuel := by
  intro h
  cases hw : consume_while (fun c => decide (c ≠ '<')) p with
  | error e =>
    unfold parse_text at h
    rw [hw, map_except_error] at h
    injection h with h'
    rw [h'] at hw
    exact consume_while_ne_oof _ p hw
  | ok r =>
    unfold parse_text at h
    rw [hw, map_except_ok] at h
    exact Except.noConfusion h

theorem parse_text_ok {p : Cursor} {n : dom.Node} {p' : Cursor}
    (h : parse_text p = .ok (n, p')) : p'.input = p.input ∧ p.position ≤ p'.position := by
  cases hw : consume_while (fun c => decide (c ≠ '<')) p with
  | error e =>
    unfold parse_text at h
    rw [hw, map_except_error] at h
    exact Except.noConfusion h
  | ok r =>
    obtain ⟨s, q⟩ := r
    unfold parse_text at h
    rw [hw, map_except_ok] at h
    simp only [Except.ok.injEq, Prod.mk.injEq] at h
    obtain ⟨rfl, rfl⟩ := h
    exact consume_while_ok hw

theorem parse_text_strict {p : Cursor} {c : Char} {n : dom.Node} {p' : Cursor}
    (hn : next_char p = .ok c) (hc : ¬ c = '<')
    (h : parse_text p = .ok (n, p')) : rem p' < rem p := by
  cases hw : consume_while (fun c => decide (c ≠ '<')) p with
  | error e =>
    unfold parse_text at h
    rw [hw, map_except_error] at h
    exact Except.noConfusion h
  | ok r =>
    obtain ⟨s, q⟩ := r
    unfold parse_text at h
    rw [hw, map_except_ok] at h
    simp only [Except.ok.injEq, Prod.mk.injEq] at h
    obtain ⟨rfl, rfl⟩ := h
    exact consume_while_rem_strict hn (decide_eq_true hc) hw

theorem parse_attr_value_ne_oof (p : Cursor) : parse_attr_value p ≠ .error .outOfFuel := by
  intro h
  unfold parse_attr_value at h
  simp only [bind, Except.bind] at h
  split at h
  · rename_i e heq
    injection h with h'
    rw [h'] at heq
    exact consume_char_ne_oof p heq
  · rename_i x heq1
    obtain ⟨quote, p1⟩ := x
    split at h
    · split at h
      · rename_i e heq
        injection h with h'
        rw [h'] at heq
        exact consume_while_ne_oof _ p1 heq
      · rename_i y heq2
        obtain ⟨value, p2⟩ := y
        split at h
        · rename_i e heq
          injection h with h'
          rw [h'] at heq
          exact consume_char_ne_oof p2 heq
        · rename_i z heq3
          obtain ⟨c2, p3⟩ := z
          split at h
          · exact Except.noConfusion h
          · injection h with h'
            exact Err.noConfusion h'
    · injection h with h'
      exact Err.noConfusion h'

theorem parse_attr_value_ok {p : Cursor} {s : String} {p' : Cursor}
    (h : parse_attr_value p = .ok (s, p')) :
    p'.input = p.input ∧ p.position < p'.position ∧ rem p' < rem p := by
  unfold parse_attr_value at h
  simp only [bind, Except.bind] at h
  split at h
  · exact Except.noConfusion h
  · rename_i x heq1
    obtain ⟨quote, p1⟩ := x
    split at h
    · split at h
      · exact Except.noConfusion h
      · rename_i y heq2
        obtain ⟨value, p2⟩ := y
        split at h
        · exact Except.noConfusion h
        · rename_i z heq3
          obtain ⟨c2, p3⟩ := z
          split at h
          · simp only [pure_except, Except.ok.injEq, Prod.mk.injEq] at h
            obtain ⟨rfl, rfl⟩ := h
            have hi1 : p1.input = p.input := (consume_char_ok heq1).1
            have hl1 : p.position < p1.position := (consume_char_ok heq1).2.1
            have hr1 : rem p1 < rem p := consume_char_rem_lt heq1
            have hi2 : p2.input = p1.input := (consume_while_ok heq2).1
            have hl2 : p1.position ≤ p2.position := (consume_while_ok heq2).2
            have hr2 : rem p2 ≤ rem p1 := rem_mono hi2 hl2
            have hi3 : p3.input = p2.input := (consume_char_ok heq3).1
            have hl3 : p2.position < p3.position := (consume_char_ok heq3).2.1
            have hr3 : rem p3 < rem p2 := consume_char_rem_lt heq3
            exact ⟨(hi3.trans hi2).trans hi1, by omega, by omega⟩
          · exact Except.noConfusion h
    · exact Except.noConfusion h

theorem parse_attrs_ne_oof (p : Cursor) : parse_attrs p ≠ .error .outOfFuel := by
  intro h
  unfold parse_attrs at h
  simp only [bind, Except.bind] at h
  split at h
  · rename_i e heq
    injection h with h'
    rw [h'] at heq
    exact parse_tag_name_ne_oof p heq
  · rename_i x heq1
    obtain ⟨name, p1⟩ := x
    split at h
    · rename_i e heq
      injection h with h'
      rw [h'] at heq
      exact consume_char_ne_oof p1 heq
    · rename_i y heq2
      obtain ⟨c, p2⟩ := y
      split at h
      · split at h
        · rename_i e heq
          injection h with h'
          rw [h'] at heq
          exact parse_attr_value_ne_oof p2 heq
        · rename_i z heq3
          obtain ⟨value, p3⟩ := z
          exact Except.noConfusion h
      · injection h with h'
        exact Err.noConfusion h'

theorem parse_attrs_ok {p : Cursor} {nv : String × String} {p' : Cursor}
    (h : parse_attrs p = .ok (nv, p')) :
    p'.input = p.input ∧ p.position < p'.position ∧ rem p' < rem p := by
  unfold parse_attrs at h
  simp only [bind, Except.bind] at h
  split at h
  · exact Except.noConfusion h
  · rename_i x heq1
    obtain ⟨name, p1⟩ := x
    split at h
    · exact Except.noConfusion h
    · rename_i y heq2
      obtain ⟨c, p2⟩ := y
      split at h
      · split at h
        · exact Except.noConfusion h
        · rename_i z heq3
          obtain ⟨value, p3⟩ := z
          simp only [pure_except, Except.ok.injEq, Prod.mk.injEq] at h
          obtain ⟨rfl, rfl⟩ := h
          have hi1 : p1.input = p.input := (parse_tag_name_ok heq1).1
          have hl1 : p.position ≤ p1.position := (parse_tag_name_ok heq1).2
          have hr1 : rem p1 ≤ rem p := rem_mono hi1 hl1
          have hi2 : p2.input = p1.input := (consume_char_ok heq2).1
          have hl2 : p1.position < p2.position := (consume_char_ok heq2).2.1
          have hr2 : rem p2 < rem p1 := consume_char_rem_lt heq2
          have hi3 : p3.input = p2.input := (parse_attr_value_ok heq3).1
          have hl3 : p2.position < p3.position := (parse_attr_value_ok heq3).2.1
          have hr3 : rem p3 < rem p2 := (parse_attr_value_ok heq3).2.2
          exact ⟨(hi3.trans hi2).trans hi1, by omega, by omega⟩
      · exact Except.noConfusion h

theorem parse_attributes_fuel_ne_oof {fuel : Nat} {p : Cursor} (hf : rem p < fuel)
    (attrs : dom.AttrMap) : parse_attributes_fuel fuel attrs p ≠ .error .outOfFuel := by
  induction fuel generalizing p attrs with
  | zero => omega
  | succ fuel ih =>
    intro h
    simp only [parse_attributes_fuel, bind, Except.bind] at h
    split at h
    · rename_i e heq
      injection h with h'
      rw [h'] at heq
      exact consume_whitespace_ne_oof p heq
    · rename_i p1 heq1
      obtain ⟨hi1, hl1⟩ := consume_whitespace_ok heq1
      have hrem1 := rem_mono hi1 hl1
      split at h
      · rename_i e heq
        injection h with h'
        rw [h'] at heq
        exact next_char_ne_oof p1 heq
      · rename_i c heq2
        split at h
        · exact Except.noConfusion h
        · split at h
          · rename_i e heq
            injection h with h'
            rw [h'] at heq
            exact parse_attrs_ne_oof p1 heq
          · rename_i z heq3
            obtain ⟨nv, p2⟩ := z
            have hi3 : p2.input = p1.input := (parse_attrs_ok heq3).1
            have hr3 : rem p2 < rem p1 := (parse_attrs_ok heq3).2.2
            exact ih (p := p2) (by omega) _ h

theorem parse_attributes_fuel_ok {fuel : Nat} {attrs : dom.AttrMap} {p : Cursor}
    {m : dom.AttrMap} {p' : Cursor} (h : parse_attributes_fuel fuel attrs p = .ok (m, p')) :
    p'.input = p.input ∧ p.position ≤ p'.position := by
  induction fuel generalizing p attrs with
  | zero => exact Except.noConfusion h
  | succ fuel ih =>
    simp only [parse_attributes_fuel, bind, Except.bind] at h
    split at h
    · exact Except.noConfusion h
    · rename_i p1 heq1
      obtain ⟨hi1, hl1⟩ := consume_whitespace_ok heq1
      split at h
      · exact Except.noConfusion h
      · rename_i c heq2
        split at h
        · simp only [pure_except, Except.ok.injEq, Prod.mk.injEq] at h
          obtain ⟨rfl, rfl⟩ := h
          exact ⟨hi1, hl1⟩
        · split at h
          · exact Except.noConfusion h
          · rename_i z heq3
            obtain ⟨nv, p2⟩ := z
            have hi3 : p2.input = p1.input := (parse_attrs_ok heq3).1
            have hl3 : p1.position < p2.position := (parse_attrs_ok heq3).2.1
            have hi4 : p'.input = p2.input := (ih h).1
            have hl4 : p2.position ≤ p'.position := (ih h).2
            exact ⟨(hi4.trans hi3).trans hi1, by omega⟩

theorem parse_attributes_ne_oof (p : Cursor) : parse_attributes p ≠ .error .outOfFuel :=
  parse_attributes_fuel_ne_oof (by omega) _

theorem parse_attributes_ok {p : Cursor} {m : dom.AttrMap} {p' : Cursor}
    (h : parse_attributes p = .ok (m, p')) :
    p'.input = p.input ∧ p.position ≤ p'.position :=
  parse_attributes_fuel_ok h

theorem parse_element_core_ok {pn : Cursor → Except Err (List dom.Node × Cursor)}
    {p : Cursor} {n : dom.Node} {p' : Cursor}
    (hpnm : ∀ q l q', pn q = .ok (l, q') → q'.input = q.input ∧ q.position ≤ q'.position)
    (h : parse_element_core pn p = .ok (n, p')) :
    p'.input = p.input ∧ rem p' < rem p := by
  unfold parse_element_core at h
  simp only [bind, Except.bind] at h
  split at h
  · exact Except.noConfusion h
  · rename_i x heq1
    obtain ⟨c1, p1⟩ := x
    split at h
    · split at h
      · exact Except.noConfusion h
      · rename_i y heq2
        obtain ⟨tag_name, p2⟩ := y
        split at h
        · exact Except.noConfusion h
        · rename_i z heq3
          obtain ⟨attrs, p3⟩ := z
          split at h
          · exact Except.noConfusion h
          · rename_i w heq4
            obtain ⟨c2, p4⟩ := w
            split at h
            · split at h
              · exact Except.noConfusion h
              · rename_i u heq5
                obtain ⟨children, p5⟩ := u
                split at h
                · exact Except.noConfusion h
                · rename_i v heq6
                  obtain ⟨c3, p6⟩ := v
                  split at h
                  · split at h
                    · exact Except.noConfusion h
                    · rename_i w2 heq7
                      obtain ⟨c4, p7⟩ := w2
                      split at h
                      · split at h
                        · exact Except.noConfusion h
                        · rename_i w3 heq8
                          obtain ⟨tag2, p8⟩ := w3
                          split at h
                          · split at h
                            · exact Except.noConfusion h
                            · rename_i w4 heq9
                              obtain ⟨c5, p9⟩ := w4
                              split at h
                              · simp only [pure_except, Except.ok.injEq, Prod.mk.injEq] at h
                                obtain ⟨rfl, rfl⟩ := h
                                have hi1 : p1.input = p.input := (consume_char_ok heq1).1
                                have hr1 : rem p1 < rem p := consume_char_rem_lt heq1
                                have hi2 : p2.input = p1.input := (parse_tag_name_ok heq2).1
                                have hr2 : rem p2 ≤ rem p1 :=
                                  rem_mono hi2 (parse_tag_name_ok heq2).2
                                have hi3 : p3.input = p2.input := (parse_attributes_ok heq3).1
                                have hr3 : rem p3 ≤ rem p2 :=
                                  rem_mono hi3 (parse_attributes_ok heq3).2
                                have hi4 : p4.input = p3.input := (consume_char_ok heq4).1
                                have hr4 : rem p4 < rem p3 := consume_char_rem_lt heq4
                                have hi5 : p5.input = p4.input := (hpnm p4 children p5 heq5).1
                                have hr5 : rem p5 ≤ rem p4 :=
                                  rem_mono hi5 (hpnm p4 children p5 heq5).2
                                have hi6 : p6.input = p5.input := (consume_char_ok heq6).1
                                have hr6 : rem p6 < rem p5 := consume_char_rem_lt heq6
                                have hi7 : p7.input = p6.input := (consume_char_ok heq7).1
                                have hr7 : rem p7 < rem p6 := consume_char_rem_lt heq7
                                have hi8 : p8.input = p7.input := (parse_tag_name_ok heq8).1
                                have hr8 : rem p8 ≤ rem p7 :=
                                  rem_mono hi8 (parse_tag_name_ok heq8).2
                                have hi9 : p9.input = p8.input := (consume_char_ok heq9).1
                                have hr9 : rem p9 < rem p8 := consume_char_rem_lt heq9
                                refine ⟨?_, by omega⟩
                                rw [hi9, hi8, hi7, hi6, hi5, hi4, hi3, hi2, hi1]
                              · exact Except.noConfusion h
                          · exact Except.noConfusion h
                      · exact Except.noConfusion h
                  · exact Except.noConfusion h
            · exact Except.noConfusion h
    · exact Except.noConfusion h

theorem parse_element_core_ne_oof {pn : Cursor → Except Err (List dom.Node × Cursor)}
    {p : Cursor}
    (hpn : ∀ q, q.input = p.input → rem q + 2 ≤ rem p → pn q ≠ .error .outOfFuel) :
    parse_element_core pn p ≠ .error .outOfFuel := by
  intro h
  unfold parse_element_core at h
  simp only [bind, Except.bind] at h
  split at h
  · rename_i e heq
    injection h with h'
    rw [h'] at heq
    exact consume_char_ne_oof p heq
  · rename_i x heq1
    obtain ⟨c1, p1⟩ := x
    have hi1 : p1.input = p.input := (consume_char_ok heq1).1
    have hr1 : rem p1 < rem p := consume_char_rem_lt heq1
    split at h
    · split at h
      · rename_i e heq
        injection h with h'
        rw [h'] at heq
        exact parse_tag_name_ne_oof p1 heq
      · rename_i y heq2
        obtain ⟨tag_name, p2⟩ := y
        have hi2 : p2.input = p1.input := (parse_tag_name_ok heq2).1
        have hr2 : rem p2 ≤ rem p1 := rem_mono hi2 (parse_tag_name_ok heq2).2
        split at h
        · rename_i e heq
          injection h with h'
          rw [h'] at heq
          exact parse_attributes_ne_oof p2 heq
        · rename_i z heq3
          obtain ⟨attrs, p3⟩ := z
          have hi3 : p3.input = p2.input := (parse_attributes_ok heq3).1
          have hr3 : rem p3 ≤ rem p2 := rem_mono hi3 (parse_attributes_ok heq3).2
          split at h
          · rename_i e heq
            injection h with h'
            rw [h'] at heq
            exact consume_char_ne_oof p3 heq
          · rename_i w heq4
            obtain ⟨c2, p4⟩ := w
            have hi4 : p4.input = p3.input := (consume_char_ok heq4).1
            have hr4 : rem p4 < rem p3 := consume_char_rem_lt heq4
            split at h
            · split at h
              · rename_i e heq
                injection h with h'
                rw [h'] at heq
                exact hpn p4 (by rw [hi4, hi3, hi2, hi1]) (by omega) heq
              · rename_i u heq5
                obtain ⟨children, p5⟩ := u
                split at h
                · rename_i e heq
                  injection h with h'
                  rw [h'] at heq
                  exact consume_char_ne_oof p5 heq
                · rename_i v heq6
                  obtain ⟨c3, p6⟩ := v
                  split at h
                  · split at h
                    · rename_i e heq
                      injection h with h'
                      rw [h'] at heq
                      exact consume_char_ne_oof p6 heq
                    · rename_i w2 heq7
                      obtain ⟨c4, p7⟩ := w2
                      split at h
                      · split at h
                        · rename_i e heq
                          injection h with h'
                          rw [h'] at heq
                          exact parse_tag_name_ne_oof p7 heq
                        · rename_i w3 heq8
                          obtain ⟨tag2, p8⟩ := w3
                          split at h
                          · split at h
                            · rename_i e heq
                              injection h with h'
                              rw [h'] at heq
                              exact consume_char_ne_oof p8 heq
                            · rename_i w4 heq9
                              obtain ⟨c5, p9⟩ := w4
                              split at h
                              · exact Except.noConfusion h
                              · injection h with h'
                                exact Err.noConfusion h'
                          · injection h with h'
                            exact Err.noConfusion h'
                      · injection h with h'
                        exact Err.noConfusion h'
                  · injection h with h'
                    exact Err.noConfusion h'
            · injection h with h'
              exact Err.noConfusion h'
    · injection h with h'
      exact Err.noConfusion h'

theorem parse_node_core_ok {pn : Cursor → Except Err (List dom.Node × Cursor)}
    {p : Cursor} {n : dom.Node} {p' : Cursor}
    (hpnm : ∀ q l q', pn q = .ok (l, q') → q'.input = q.input ∧ q.position ≤ q'.position)
    (h : parse_node_core pn p = .ok (n, p')) :
    p'.input = p.input ∧ rem p' < rem p := by
  unfold parse_node_core at h
  simp only [bind, Except.bind] at h
  split at h
  · exact Except.noConfusion h
  · rename_i c heq1
    split at h
    · exact parse_element_core_ok hpnm h
    · rename_i hc
      obtain ⟨hi, hl⟩ := parse_text_ok h
      exact ⟨hi, parse_text_strict heq1 hc h⟩

theorem parse_node_core_ne_oof {pn : Cursor → Except Err (List dom.Node × Cursor)}
    {p : Cursor}
    (hpn : ∀ q, q.input = p.input → rem q + 2 ≤ rem p → pn q ≠ .error .outOfFuel) :
    parse_node_core pn p ≠ .error .outOfFuel := by
  intro h
  unfold parse_node_core at h
  simp only [bind, Except.bind] at h
  split at h
  · rename_i e heq
    injection h with h'
    rw [h'] at heq
    exact next_char_ne_oof p heq
  · rename_i c heq1
    split at h
    · exact parse_element_core_ne_oof hpn h
    · exact parse_text_ne_oof p h

theorem parse_nodes_fuel_ok {fuel : Nat} {p : Cursor} {l : List dom.Node} {p' : Cursor}
    (h : parse_nodes_fuel fuel p = .ok (l, p')) :
    p'.input = p.input ∧ p.position ≤ p'.position := by
  induction fuel generalizing p l p' with
  | zero => exact Except.noConfusion h
  | succ fuel ih =>
    simp only [parse_nodes_fuel, bind, Except.bind] at h
    split at h
    · exact Except.noConfusion h
    · rename_i p1 heq1
      obtain ⟨hi1, hl1⟩ := consume_whitespace_ok heq1
      split at h
      · exact Except.noConfusion h
      · rename_i sw heq2
        split at h
        · simp only [pure_except, Except.ok.injEq, Prod.mk.injEq] at h
          obtain ⟨rfl, rfl⟩ := h
          exact ⟨hi1, hl1⟩
        · split at h
          · exact Except.noConfusion h
          · rename_i x heq3
            obtain ⟨n, p2⟩ := x
            have hnode := parse_node_core_ok (fun q l q' hq => ih hq) heq3
            have hi3 : p2.input = p1.input := hnode.1
            have hr3 : rem p2 < rem p1 := hnode.2
            split at h
            · exact Except.noConfusion h
            · rename_i y heq4
              obtain ⟨ns, p3⟩ := y
              simp only [pure_except, Except.ok.injEq, Prod.mk.injEq] at h
              obtain ⟨rfl, rfl⟩ := h
              have hi4 : p3.input = p2.input := (ih heq4).1
              have hl4 : p2.position ≤ p3.position := (ih heq4).2
              refine ⟨(hi4.trans hi3).trans hi1, ?_⟩
              have hrr : rem p2 < rem p1 := hr3
              unfold rem at hrr
              rw [hi3] at hrr
              omega

theorem parse_nodes_fuel_ne_oof {fuel : Nat} {p : Cursor} (hf : rem p < fuel) :
    parse_nodes_fuel fuel p ≠ .error .outOfFuel := by
  induction fuel generalizing p with
  | zero => omega
  | succ fuel ih =>
    intro h
    simp only [parse_nodes_fuel, bind, Except.bind] at h
    split at h
    · rename_i e heq
      injection h with h'
      rw [h'] at heq
      exact consume_whitespace_ne_oof p heq
    · rename_i p1 heq1
      obtain ⟨hi1, hl1⟩ := consume_whitespace_ok heq1
      have hrem1 := rem_mono hi1 hl1
      split at h
      · rename_i e heq
        injection h with h'
        rw [h'] at heq
        exact starts_with_ne_oof p1 _ heq
      · rename_i sw heq2
        split at h
        · exact Except.noConfusion h
        · split at h
          · rename_i e heq
            injection h with h'
            rw [h'] at heq
            refine parse_node_core_ne_oof ?_ heq
            intro q hqi hqr
            exact ih (p := q) (by omega)
          · rename_i x heq3
            obtain ⟨n, p2⟩ := x
            have hnode := parse_node_core_ok (fun q l q' hq => parse_nodes_fuel_ok hq) heq3
            have hi3 : p2.input = p1.input := hnode.1
            have hr3 : rem p2 < rem p1 := hnode.2
            split at h
            · rename_i e heq
              injection h with h'
              rw [h'] at heq
              exact ih (p := p2) (by omega) heq
            · exact Except.noConfusion h

theorem parse_nodes_ne_oof (p : Cursor) : parse_nodes p ≠ .error .outOfFuel :=
  parse_nodes_fuel_ne_oof (by omega)

theorem parse_nodes_ok {p : Cursor} {l : List dom.Node} {p' : Cursor}
    (h : parse_nodes p = .ok (l, p')) :
    p'.input = p.input ∧ p.position ≤ p'.position :=
  parse_nodes_fuel_ok h

theorem html_parse_ne_oof (source : String) : parse source ≠ .error .outOfFuel := by
  intro h
  unfold parse at h
  simp only [bind, Except.bind] at h
  split at h
  · rename_i e heq
    injection h with h'
    rw [h'] at heq
    exact parse_nodes_ne_oof _ heq
  · rename_i x heq1
    obtain ⟨nodes, q⟩ := x
    split at h
    · exact Except.noConfusion h
    · exact Except.noConfusion h

end Html

/-! Progress and fuel-adequacy lemmas for the CSS parser. -/

namespace Css

theorem parse_identifier_ne_oof (p : Cursor) : parse_identifier p ≠ .error .outOfFuel :=
  consume_while_ne_oof _ p

theorem parse_identifier_ok {p : Cursor} {s : String} {p' : Cursor}
    (h : parse_identifier p = .ok (s, p')) :
    p'.input = p.input ∧ p.position ≤ p'.position :=
  consume_while_ok h

theorem parse_float_ne_oof (p : Cursor) : parse_float p ≠ .error .outOfFuel := by
  intro h
  unfold parse_float at h
  simp only [bind, Except.bind] at h
  split at h
  · rename_i e heq
    injection h with h'
    rw [h'] at heq
    exact consume_while_ne_oof _ p heq
  · rename_i x heq1
    obtain ⟨s, p1⟩ := x
    split at h
    · exact Except.noConfusion h
    · injection h with h'
      exact Err.noConfusion h'

theorem parse_float_ok {p : Cursor} {v : ℚ} {p' : Cursor}
    (h : parse_float p = .ok (v, p')) : p'.input = p.input ∧ p.position ≤ p'.position := by
  unfold parse_float at h
  simp only [bind, Except.bind] at h
  split at h
  · exact Except.noConfusion h
  · rename_i x heq1
    obtain ⟨s, p1⟩ := x
    split at h
    · simp only [pure_except, Except.ok.injEq, Prod.mk.injEq] at h
      obtain ⟨rfl, rfl⟩ := h
      exact consume_while_ok heq1
    · exact Except.noConfusion h

theorem parse_unit_ne_oof (p : Cursor) : parse_unit p ≠ .error .outOfFuel := by
  intro h
  unfold parse_unit at h
  simp only [bind, Except.bind] at h
  split at h
  · rename_i e heq
    injection h with h'
    rw [h'] at heq
    exact parse_identifier_ne_oof p heq
  · rename_i x heq1
    obtain ⟨id, p1⟩ := x
    split at h
    · exact Except.noConfusion h
    · injection h with h'
      exact Err.noConfusion h'

theorem parse_unit_ok {p : Cursor} {u : Unit} {p' : Cursor}
    (h : parse_unit p = .ok (u, p')) : p'.input = p.input ∧ p.position ≤ p'.position := by
  unfold parse_unit at h
  simp only [bind, Except.bind] at h
  split at h
  · exact Except.noConfusion h
  · rename_i x heq1
    obtain ⟨id, p1⟩ := x
    split at h
    · simp only [pure_except, Except.ok.injEq, Prod.mk.injEq] at h
      obtain ⟨h1, h2⟩ := h
      subst h2
      exact parse_identifier_ok heq1
    · exact Except.noConfusion h

theorem parse_length_ne_oof (p : Cursor) : parse_length p ≠ .error .outOfFuel := by
  intro h
  unfold parse_length at h
  simp only [bind, Except.bind] at h
  split at h
  · rename_i e heq
    injection h with h'
    rw [h'] at heq
    exact parse_float_ne_oof p heq
  · rename_i x heq1
    obtain ⟨v, p1⟩ := x
    split at h
    · rename_i e heq
      injection h with h'
      rw [h'] at heq
      exact parse_unit_ne_oof p1 heq
    · rename_i y heq2
      obtain ⟨u, p2⟩ := y
      exact Except.noConfusion h

theorem parse_length_ok {p : Cursor} {v : Value} {p' : Cursor}
    (h : parse_length p = .ok (v, p')) : p'.input = p.input ∧ p.position ≤ p'.position := by
  unfold parse_length at h
  simp only [bind, Except.bind] at h
  split at h
  · exact Except.noConfusion h
  · rename_i x heq1
    obtain ⟨w, p1⟩ := x
    split at h
    · exact Except.noConfusion h
    · rename_i y heq2
      obtain ⟨u, p2⟩ := y
      simp only [pure_except, Except.ok.injEq, Prod.mk.injEq] at h
      obtain ⟨rfl, rfl⟩ := h
      have hi1 : p1.input = p.input := (parse_float_ok heq1).1
      have hl1 : p.position ≤ p1.position := (parse_float_ok heq1).2
      have hi2 : p2.input = p1.input := (parse_unit_ok heq2).1
      have hl2 : p1.position ≤ p2.position := (parse_unit_ok heq2).2
      exact ⟨hi2.trans hi1, by omega⟩

theorem parse_hex_pair_ne_oof (p : Cursor) : parse_hex_pair p ≠ .error .outOfFuel := by
  intro h
  unfold parse_hex_pair at h
  split at h
  · exact absurd (Except.error.inj h) (by decide)
  · exact absurd (Except.error.inj h) (by decide)
  · split at h
    · exact absurd (Except.error.inj h) (by decide)
    · split at h
      · exact absurd (Except.error.inj h) (by decide)
      · exact absurd (Except.error.inj h) (by decide)
  · split at h
    · split at h
      · split at h
        · exact Except.noConfusion h
        · exact absurd (Except.error.inj h) (by decide)
      · exact absurd (Except.error.inj h) (by decide)
    · split at h
      · exact absurd (Except.error.inj h) (by decide)
      · exact absurd (Except.error.inj h) (by decide)

theorem parse_hex_pair_ok {p : Cursor} {v : Nat} {p' : Cursor}
    (h : parse_hex_pair p = .ok (v, p')) :
    p'.input = p.input ∧ p.position ≤ p'.position := by
  unfold parse_hex_pair at h
  split at h
  · exact Except.noConfusion h
  · exact Except.noConfusion h
  · split at h
    · exact Except.noConfusion h
    · split at h
      · exact Except.noConfusion h
      · exact Except.noConfusion h
  · split at h
    · split at h
      · split at h
        · simp only [Except.ok.injEq, Prod.mk.injEq] at h
          obtain ⟨rfl, rfl⟩ := h
          exact ⟨rfl, by show p.position ≤ p.position + 2; omega⟩
        · exact Except.noConfusion h
      · exact Except.noConfusion h
    · split at h
      · exact Except.noConfusion h
      · exact Except.noConfusion h

theorem parse_color_ne_oof (p : Cursor) : parse_color p ≠ .error .outOfFuel := by
  intro h
  unfold parse_color at h
  simp only [bind, Except.bind] at h
  split at h
  · rename_i e heq
    injection h with h'
    rw [h'] at heq
    exact consume_char_ne_oof p heq
  · rename_i x heq1
    obtain ⟨c, p1⟩ := x
    split at h
    · split at h
      · rename_i e heq
        injection h with h'
        rw [h'] at heq
        exact parse_hex_pair_ne_oof p1 heq
      · rename_i y heq2
        obtain ⟨r, p2⟩ := y
        split at h
        · rename_i e heq
          injection h with h'
          rw [h'] at heq
          exact parse_hex_pair_ne_oof p2 heq
        · rename_i z heq3
          obtain ⟨g, p3⟩ := z
          split at h
          · rename_i e heq
            injection h with h'
            rw [h'] at heq
            exact parse_hex_pair_ne_oof p3 heq
          · rename_i w heq4
            obtain ⟨b, p4⟩ := w
            exact Except.noConfusion h
    · injection h with h'
      exact Err.noConfusion h'

theorem parse_color_ok {p : Cursor} {v : Value} {p' : Cursor}
    (h : parse_color p = .ok (v, p')) : p'.input = p.input ∧ p.position ≤ p'.position := by
  unfold parse_color at h
  simp only [bind, Except.bind] at h
  split at h
  · exact Except.noConfusion h
  · rename_i x heq1
    obtain ⟨c, p1⟩ := x
    split at h
    · split at h
      · exact Except.noConfusion h
      · rename_i y heq2
        obtain ⟨r, p2⟩ := y
        split at h
        · exact Except.noConfusion h
        · rename_i z heq3
          obtain ⟨g, p3⟩ := z
          split at h
          · exact Except.noConfusion h
          · rename_i w heq4
            obtain ⟨b, p4⟩ := w
            simp only [pure_except, Except.ok.injEq, Prod.mk.injEq] at h
            obtain ⟨rfl, rfl⟩ := h
            have hi1 : p1.input = p.input := (consume_char_ok heq1).1
            have hl1 : p.position < p1.position := (consume_char_ok heq1).2.1
            have hi2 : p2.input = p1.input := (parse_hex_pair_ok heq2).1
            have hl2 : p1.position ≤ p2.position := (parse_hex_pair_ok heq2).2
            have hi3 : p3.input = p2.input := (parse_hex_pair_ok heq3).1
            have hl3 : p2.position ≤ p3.position := (parse_hex_pair_ok heq3).2
            have hi4 : p4.input = p3.input := (parse_hex_pair_ok heq4).1
            have hl4 : p3.position ≤ p4.position := (parse_hex_pair_ok heq4).2
            exact ⟨((hi4.trans hi3).trans hi2).trans hi1, by omega⟩
    · exact Except.noConfusion h

theorem parse_value_ne_oof (p : Cursor) : parse_value p ≠ .error .outOfFuel := by
  intro h
  unfold parse_value at h
  simp only [bind, Except.bind] at h
  split at h
  · rename_i e heq
    injection h with h'
    rw [h'] at heq
    exact next_char_ne_oof p heq
  · rename_i c heq1
    split at h
    · exact parse_length_ne_oof p h
    · split at h
      · exact parse_color_ne_oof p h
      · split at h
        · rename_i e heq
          injection h with h'
          rw [h'] at heq
          exact parse_identifier_ne_oof p heq
        · rename_i x heq2
          obtain ⟨id, p1⟩ := x
          exact Except.noConfusion h

theorem parse_value_ok {p : Cursor} {v : Value} {p' : Cursor}
    (h : parse_value p = .ok (v, p')) : p'.input = p.input ∧ p.position ≤ p'.position := by
  unfold parse_value at h
  simp only [bind, Except.bind] at h
  split at h
  · exact Except.noConfusion h
  · rename_i c heq1
    split at h
    · exact parse_length_ok h
    · split at h
      · exact parse_color_ok h
      · split at h
        · exact Except.noConfusion h
        · rename_i x heq2
          obtain ⟨id, p1⟩ := x
          simp only [pure_except, Except.ok.injEq, Prod.mk.injEq] at h
          obtain ⟨rfl, rfl⟩ := h
          exact parse_identifier_ok heq2

theorem parse_declaration_ne_oof (p : Cursor) : parse_declaration p ≠ .error .outOfFuel := by
  intro h
  unfold parse_declaration at h
  simp only [bind, Except.bind] at h
  split at h
  · rename_i e heq
    injection h with h'
    rw [h'] at heq
    exact parse_identifier_ne_oof p heq
  · rename_i x heq1
    obtain ⟨property_name, p1⟩ := x
    split at h
    · rename_i e heq
      injection h with h'
      rw [h'] at heq
      exact consume_whitespace_ne_oof p1 heq
    · rename_i p2 heq2
      split at h
      · rename_i e heq
        injection h with h'
        rw [h'] at heq
        exact consume_char_ne_oof p2 heq
      · rename_i y heq3
        obtain ⟨c1, p3⟩ := y
        split at h
        · split at h
          · rename_i e heq
            injection h with h'
            rw [h'] at heq
            exact consume_whitespace_ne_oof p3 heq
          · rename_i p4 heq4
            split at h
            · rename_i e heq
              injection h with h'
              rw [h'] at heq
              exact parse_value_ne_oof p4 heq
            · rename_i z heq5
              obtain ⟨value, p5⟩ := z
              split at h
              · rename_i e heq
                injection h with h'
                rw [h'] at heq
                exact consume_whitespace_ne_oof p5 heq
              · rename_i p6 heq6
                split at h
                · rename_i e heq
                  injection h with h'
                  rw [h'] at heq
                  exact consume_char_ne_oof p6 heq
                · rename_i w heq7
                  obtain ⟨c2, p7⟩ := w
                  split at h
                  · exact Except.noConfusion h
                  · injection h with h'
                    exact Err.noConfusion h'
        · injection h with h'
          exact Err.noConfusion h'

theorem parse_declaration_ok {p : Cursor} {d : Declaration} {p' : Cursor}
    (h : parse_declaration p = .ok (d, p')) :
    p'.input = p.input ∧ rem p' < rem p := by
  unfold parse_declaration at h
  simp only [bind, Except.bind] at h
  split at h
  · exact Except.noConfusion h
  · rename_i x heq1
    obtain ⟨property_name, p1⟩ := x
    split at h
    · exact Except.noConfusion h
    · rename_i p2 heq2
      split at h
      · exact Except.noConfusion h
      · rename_i y heq3
        obtain ⟨c1, p3⟩ := y
        split at h
        · split at h
          · exact Except.noConfusion h
          · rename_i p4 heq4
            split at h
            · exact Except.noConfusion h
            · rename_i z heq5
              obtain ⟨value, p5⟩ := z
              split at h
              · exact Except.noConfusion h
              · rename_i p6 heq6
                split at h
                · exact Except.noConfusion h
                · rename_i w heq7
                  obtain ⟨c2, p7⟩ := w
                  split at h
                  · simp only [pure_except, Except.ok.injEq, Prod.mk.injEq] at h
                    obtain ⟨rfl, rfl⟩ := h
                    have hi1 : p1.input = p.input := (parse_identifier_ok heq1).1
                    have hr1 : rem p1 ≤ rem p :=
                      rem_mono hi1 (parse_identifier_ok heq1).2
                    have hi2 : p2.input = p1.input := (consume_whitespace_ok heq2).1
                    have hr2 : rem p2 ≤ rem p1 :=
                      rem_mono hi2 (consume_whitespace_ok heq2).2
                    have hi3 : p3.input = p2.input := (consume_char_ok heq3).1
                    have hr3 : rem p3 < rem p2 := consume_char_rem_lt heq3
                    have hi4 : p4.input = p3.input := (consume_whitespace_ok heq4).1
                    have hr4 : rem p4 ≤ rem p3 :=
                      rem_mono hi4 (consume_whitespace_ok heq4).2
                    have hi5 : p5.input = p4.input := (parse_value_ok heq5).1
                    have hr5 : rem p5 ≤ rem p4 :=
                      rem_mono hi5 (parse_value_ok heq5).2
                    have hi6 : p6.input = p5.input := (consume_whitespace_ok heq6).1
                    have hr6 : rem p6 ≤ rem p5 :=
                      rem_mono hi6 (consume_whitespace_ok heq6).2
                    have hi7 : p7.input = p6.input := (consume_char_ok heq7).1
                    have hr7 : rem p7 < rem p6 := consume_char_rem_lt heq7
                    refine ⟨?_, by omega⟩
                    rw [hi7, hi6, hi5, hi4, hi3, hi2, hi1]
                  · exact Except.noConfusion h
        · exact Except.noConfusion h

theorem parse_declarations_loop_fuel_ne_oof {fuel : Nat} {p : Cursor} (hf : rem p < fuel) :
    parse_declarations_loop_fuel fuel p ≠ .error .outOfFuel := by
  induction fuel generalizing p with
  | zero => omega
  | succ fuel ih =>
    intro h
    simp only [parse_declarations_loop_fuel, bind, Except.bind] at h
    split at h
    · rename_i e heq
      injection h with h'
      rw [h'] at heq
      exact consume_whitespace_ne_oof p heq
    · rename_i p1 heq1
      have hi1 : p1.input = p.input := (consume_whitespace_ok heq1).1
      have hr1 : rem p1 ≤ rem p := rem_mono hi1 (consume_whitespace_ok heq1).2
      split at h
      · rename_i e heq
        injection h with h'
        rw [h'] at heq
        exact next_char_ne_oof p1 heq
      · rename_i c heq2
        split at h
        · split at h
          · rename_i e heq
            injection h with h'
            rw [h'] at heq
            exact consume_char_ne_oof p1 heq
          · rename_i x heq3
            obtain ⟨c2, p2⟩ := x
            exact Except.noConfusion h
        · split at h
          · rename_i e heq
            injection h with h'
            rw [h'] at heq
            exact parse_declaration_ne_oof p1 heq
          · rename_i y heq4
            obtain ⟨d, p2⟩ := y
            have hi4 : p2.input = p1.input := (parse_declaration_ok heq4).1
            have hr4 : rem p2 < rem p1 := (parse_declaration_ok heq4).2
            split at h
            · rename_i e heq
              injection h with h'
              rw [h'] at heq
              exact ih (p := p2) (by omega) heq
            · exact Except.noConfusion h

theorem parse_declarations_loop_fuel_ok {fuel : Nat} {p : Cursor} {l : List Declaration}
    {p' : Cursor} (h : parse_declarations_loop_fuel fuel p = .ok (l, p')) :
    p'.input = p.input ∧ p.position ≤ p'.position := by
  induction fuel generalizing p l p' with
  | zero => exact Except.noConfusion h
  | succ fuel ih =>
    simp only [parse_declarations_loop_fuel, bind, Except.bind] at h
    split at h
    · exact Except.noConfusion h
    · rename_i p1 heq1
      have hi1 : p1.input = p.input := (consume_whitespace_ok heq1).1
      have hl1 : p.position ≤ p1.position := (consume_whitespace_ok heq1).2
      split at h
      · exact Except.noConfusion h
      · rename_i c heq2
        split at h
        · split at h
          · exact Except.noConfusion h
          · rename_i x heq3
            obtain ⟨c2, p2⟩ := x
            simp only [pure_except, Except.ok.injEq, Prod.mk.injEq] at h
            obtain ⟨rfl, rfl⟩ := h
            have hi3 : p2.input = p1.input := (consume_char_ok heq3).1
            have hl3 : p1.position < p2.position := (consume_char_ok heq3).2.1
            exact ⟨hi3.trans hi1, by omega⟩
        · split at h
          · exact Except.noConfusion h
          · rename_i y heq4
            obtain ⟨d, p2⟩ := y
            have hi4 : p2.input = p1.input := (parse_declaration_ok heq4).1
            have hr4 : rem p2 < rem p1 := (parse_declaration_ok heq4).2
            split at h
            · exact Except.noConfusion h
            · rename_i z heq5
              obtain ⟨ds, p3⟩ := z
              simp only [pure_except, Except.ok.injEq, Prod.mk.injEq] at h
              obtain ⟨rfl, rfl⟩ := h
              have hi5 : p3.input = p2.input := (ih heq5).1
              have hl5 : p2.position ≤ p3.position := (ih heq5).2
              have hl4 : p1.position ≤ p2.position := by
                unfold rem at hr4
                rw [hi4] at hr4
                by_contra hcon
                push_neg at hcon
                omega
              exact ⟨(hi5.trans hi4).trans hi1, by omega⟩

theorem parse_declarations_loop_ne_oof (p : Cursor) :
    parse_declarations_loop p ≠ .error .outOfFuel :=
  parse_declarations_loop_fuel_ne_oof (by omega)

theorem parse_declarations_loop_ok {p : Cursor} {l : List Declaration} {p' : Cursor}
    (h : parse_declarations_loop p = .ok (l, p')) :
    p'.input = p.input ∧ p.position ≤ p'.position :=
  parse_declarations_loop_fuel_ok h

theorem parse_declarations_ne_oof (p : Cursor) : parse_declarations p ≠ .error .outOfFuel := by
  intro h
  unfold parse_declarations at h
  simp only [bind, Except.bind] at h
  split at h
  · rename_i e heq
    injection h with h'
    rw [h'] at heq
    exact consume_char_ne_oof p heq
  · rename_i x heq1
    obtain ⟨c, p1⟩ := x
    split at h
    · exact parse_declarations_loop_ne_oof p1 h
    · injection h with h'
      exact Err.noConfusion h'

theorem parse_declarations_ok {p : Cursor} {l : List Declaration} {p' : Cursor}
    (h : parse_declarations p = .ok (l, p')) :
    p'.input = p.input ∧ rem p' < rem p := by
  unfold parse_declarations at h
  simp only [bind, Except.bind] at h
  split at h
  · exact Except.noConfusion h
  · rename_i x heq1
    obtain ⟨c, p1⟩ := x
    split at h
    · have hi1 : p1.input = p.input := (consume_char_ok heq1).1
      have hr1 : rem p1 < rem p := consume_char_rem_lt heq1
      have hi2 : p'.input = p1.input := (parse_declarations_loop_ok h).1
      have hr2 : rem p' ≤ rem p1 :=
        rem_mono hi2 (parse_declarations_loop_ok h).2
      exact ⟨hi2.trans hi1, by omega⟩
    · exact Except.noConfusion h

theorem parse_simple_selector_fuel_ne_oof {fuel : Nat} {p : Cursor} (hf : rem p < fuel)
    (sel : SimpleSelector) : parse_simple_selector_fuel fuel sel p ≠ .error .outOfFuel := by
  induction fuel generalizing p sel with
  | zero => omega
  | succ fuel ih =>
    intro h
    simp only [parse_simple_selector_fuel, bind, Except.bind] at h
    split at h
    · exact Except.noConfusion h
    · split at h
      · rename_i e heq
        injection h with h'
        rw [h'] at heq
        exact next_char_ne_oof p heq
      · rename_i c heq1
        have hcons := next_char_ok_inv heq1
        split at h
        · split at h
          · rename_i e heq
            injection h with h'
            rw [h'] at heq
            exact consume_char_ne_oof p heq
          · rename_i x heq2
            obtain ⟨c1, p1⟩ := x
            have hi2 : p1.input = p.input := (consume_char_ok heq2).1
            have hr2 : rem p1 < rem p := consume_char_rem_lt heq2
            split at h
            · rename_i e heq
              injection h with h'
              rw [h'] at heq
              exact parse_identifier_ne_oof p1 heq
            · rename_i y heq3
              obtain ⟨id, p2⟩ := y
              have hi3 : p2.input = p1.input := (parse_identifier_ok heq3).1
              have hr3 : rem p2 ≤ rem p1 := rem_mono hi3 (parse_identifier_ok heq3).2
              exact ih (p := p2) (by omega) _ h
        · split at h
          · split at h
            · rename_i e heq
              injection h with h'
              rw [h'] at heq
              exact consume_char_ne_oof p heq
            · rename_i x heq2
              obtain ⟨c1, p1⟩ := x
              have hi2 : p1.input = p.input := (consume_char_ok heq2).1
              have hr2 : rem p1 < rem p := consume_char_rem_lt heq2
              split at h
              · rename_i e heq
                injection h with h'
                rw [h'] at heq
                exact parse_identifier_ne_oof p1 heq
              · rename_i y heq3
                obtain ⟨cls, p2⟩ := y
                have hi3 : p2.input = p1.input := (parse_identifier_ok heq3).1
                have hr3 : rem p2 ≤ rem p1 := rem_mono hi3 (parse_identifier_ok heq3).2
                exact ih (p := p2) (by omega) _ h
          · split at h
            · split at h
              · rename_i e heq
                injection h with h'
                rw [h'] at heq
                exact consume_char_ne_oof p heq
              · rename_i x heq2
                obtain ⟨c1, p1⟩ := x
                have hi2 : p1.input = p.input := (consume_char_ok heq2).1
                have hr2 : rem p1 < rem p := consume_char_rem_lt heq2
                exact ih (p := p1) (by omega) _ h
            · split at h
              · rename_i hvalid
                split at h
                · rename_i e heq
                  injection h with h'
                  rw [h'] at heq
                  exact parse_identifier_ne_oof p heq
                · rename_i y heq3
                  obtain ⟨t, p1⟩ := y
                  obtain ⟨r, hr⟩ := hcons
                  have hi3 : p1.input = p.input := (parse_identifier_ok heq3).1
                  have hr3 : rem p1 < rem p := by
                    refine consume_while_rem_strict heq1 ?_ heq3
                    exact hvalid
                  exact ih (p := p1) (by omega) _ h
              · exact Except.noConfusion h

theorem parse_simple_selector_fuel_ok {fuel : Nat} {sel : SimpleSelector} {p : Cursor}
    {s : SimpleSelector} {p' : Cursor}
    (h : parse_simple_selector_fuel fuel sel p = .ok (s, p')) :
    p'.input = p.input ∧ p.position ≤ p'.position := by
  induction fuel generalizing p sel s p' with
  | zero => exact Except.noConfusion h
  | succ fuel ih =>
    simp only [parse_simple_selector_fuel, bind, Except.bind] at h
    split at h
    · simp only [pure_except, Except.ok.injEq, Prod.mk.injEq] at h
      obtain ⟨rfl, rfl⟩ := h
      exact ⟨rfl, le_refl _⟩
    · split at h
      · exact Except.noConfusion h
      · rename_i c heq1
        split at h
        · split at h
          · exact Except.noConfusion h
          · rename_i x heq2
            obtain ⟨c1, p1⟩ := x
            have hi2 : p1.input = p.input := (consume_char_ok heq2).1
            have hl2 : p.position < p1.position := (consume_char_ok heq2).2.1
            split at h
            · exact Except.noConfusion h
            · rename_i y heq3
              obtain ⟨id, p2⟩ := y
              have hi3 : p2.input = p1.input := (parse_identifier_ok heq3).1
              have hl3 : p1.position ≤ p2.position := (parse_identifier_ok heq3).2
              have hi4 : p'.input = p2.input := (ih h).1
              have hl4 : p2.position ≤ p'.position := (ih h).2
              exact ⟨(hi4.trans hi3).trans hi2, by omega⟩
        · split at h
          · split at h
            · exact Except.noConfusion h
            · rename_i x heq2
              obtain ⟨c1, p1⟩ := x
              have hi2 : p1.input = p.input := (consume_char_ok heq2).1
              have hl2 : p.position < p1.position := (consume_char_ok heq2).2.1
              split at h
              · exact Except.noConfusion h
              · rename_i y heq3
                obtain ⟨cls, p2⟩ := y
                have hi3 : p2.input = p1.input := (parse_identifier_ok heq3).1
                have hl3 : p1.position ≤ p2.position := (parse_identifier_ok heq3).2
                have hi4 : p'.input = p2.input := (ih h).1
                have hl4 : p2.position ≤ p'.position := (ih h).2
                exact ⟨(hi4.trans hi3).trans hi2, by omega⟩
          · split at h
            · split at h
              · exact Except.noConfusion h
              · rename_i x heq2
                obtain ⟨c1, p1⟩ := x
                have hi2 : p1.input = p.input := (consume_char_ok heq2).1
                have hl2 : p.position < p1.position := (consume_char_ok heq2).2.1
                have hi4 : p'.input = p1.input := (ih h).1
                have hl4 : p1.position ≤ p'.position := (ih h).2
                exact ⟨hi4.trans hi2, by omega⟩
            · split at h
              · split at h
                · exact Except.noConfusion h
                · rename_i y heq3
                  obtain ⟨t, p1⟩ := y
                  have hi3 : p1.input = p.input := (parse_identifier_ok heq3).1
                  have hl3 : p.position ≤ p1.position := (parse_identifier_ok heq3).2
                  have hi4 : p'.input = p1.input := (ih h).1
                  have hl4 : p1.position ≤ p'.position := (ih h).2
                  exact ⟨hi4.trans hi3, by omega⟩
              · simp only [pure_except, Except.ok.injEq, Prod.mk.injEq] at h
                obtain ⟨rfl, rfl⟩ := h
                exact ⟨rfl, le_refl _⟩

theorem parse_simple_selector_ne_oof (p : Cursor) :
    parse_simple_selector p ≠ .error .outOfFuel :=
  parse_simple_selector_fuel_ne_oof (by omega) _

theorem parse_simple_selector_ok {p : Cursor} {s : SimpleSelector} {p' : Cursor}
    (h : parse_simple_selector p = .ok (s, p')) :
    p'.input = p.input ∧ p.position ≤ p'.position :=
  parse_simple_selector_fuel_ok h

theorem parse_selectors_loop_fuel_ne_oof {fuel : Nat} {p : Cursor} (hf : rem p < fuel) :
    parse_selectors_loop_fuel fuel p ≠ .error .outOfFuel := by
  induction fuel generalizing p with
  | zero => omega
  | succ fuel ih =>
    intro h
    simp only [parse_selectors_loop_fuel, bind, Except.bind] at h
    split at h
    · rename_i e heq
      injection h with h'
      rw [h'] at heq
      exact parse_simple_selector_ne_oof p heq
    · rename_i x heq1
      obtain ⟨simple, p1⟩ := x
      have hi1 : p1.input = p.input := (parse_simple_selector_ok heq1).1
      have hr1 : rem p1 ≤ rem p := rem_mono hi1 (parse_simple_selector_ok heq1).2
      split at h
      · rename_i e heq
        injection h with h'
        rw [h'] at heq
        exact consume_whitespace_ne_oof p1 heq
      · rename_i p2 heq2
        have hi2 : p2.input = p1.input := (consume_whitespace_ok heq2).1
        have hr2 : rem p2 ≤ rem p1 := rem_mono hi2 (consume_whitespace_ok heq2).2
        split at h
        · rename_i e heq
          injection h with h'
          rw [h'] at heq
          exact next_char_ne_oof p2 heq
        · rename_i c heq3
          split at h
          · split at h
            · rename_i e heq
              injection h with h'
              rw [h'] at heq
              exact consume_char_ne_oof p2 heq
            · rename_i y heq4
              obtain ⟨c1, p3⟩ := y
              have hi4 : p3.input = p2.input := (consume_char_ok heq4).1
              have hr4 : rem p3 < rem p2 := consume_char_rem_lt heq4
              split at h
              · rename_i e heq
                injection h with h'
                rw [h'] at heq
                exact consume_whitespace_ne_oof p3 heq
              · rename_i p4 heq5
                have hi5 : p4.input = p3.input := (consume_whitespace_ok heq5).1
                have hr5 : rem p4 ≤ rem p3 := rem_mono hi5 (consume_whitespace_ok heq5).2
                split at h
                · rename_i e heq
                  injection h with h'
                  rw [h'] at heq
                  exact ih (p := p4) (by omega) heq
                · rename_i z heq6
                  obtain ⟨rest, p5⟩ := z
                  exact Except.noConfusion h
          · split at h
            · exact Except.noConfusion h
            · injection h with h'
              exact Err.noConfusion h'

theorem parse_selectors_loop_fuel_ok {fuel : Nat} {p : Cursor} {l : List Selector}
    {p' : Cursor} (h : parse_selectors_loop_fuel fuel p = .ok (l, p')) :
    p'.input = p.input ∧ p.position ≤ p'.position := by
  induction fuel generalizing p l p' with
  | zero => exact Except.noConfusion h
  | succ fuel ih =>
    simp only [parse_selectors_loop_fuel, bind, Except.bind] at h
    split at h
    · exact Except.noConfusion h
    · rename_i x heq1
      obtain ⟨simple, p1⟩ := x
      have hi1 : p1.input = p.input := (parse_simple_selector_ok heq1).1
      have hl1 : p.position ≤ p1.position := (parse_simple_selector_ok heq1).2
      split at h
      · exact Except.noConfusion h
      · rename_i p2 heq2
        have hi2 : p2.input = p1.input := (consume_whitespace_ok heq2).1
        have hl2 : p1.position ≤ p2.position := (consume_whitespace_ok heq2).2
        split at h
        · exact Except.noConfusion h
        · rename_i c heq3
          split at h
          · split at h
            · exact Except.noConfusion h
            · rename_i y heq4
              obtain ⟨c1, p3⟩ := y
              have hi4 : p3.input = p2.input := (consume_char_ok heq4).1
              have hl4 : p2.position < p3.position := (consume_char_ok heq4).2.1
              split at h
              · exact Except.noConfusion h
              · rename_i p4 heq5
                have hi5 : p4.input = p3.input := (consume_whitespace_ok heq5).1
                have hl5 : p3.position ≤ p4.position := (consume_whitespace_ok heq5).2
                split at h
                · exact Except.noConfusion h
                · rename_i z heq6
                  obtain ⟨rest, p5⟩ := z
                  simp only [pure_except, Except.ok.injEq, Prod.mk.injEq] at h
                  obtain ⟨rfl, rfl⟩ := h
                  have hi6 : p5.input = p4.input := (ih heq6).1
                  have hl6 : p4.position ≤ p5.position := (ih heq6).2
                  exact ⟨(((hi6.trans hi5).trans hi4).trans hi2).trans hi1, by omega⟩
          · split at h
            · simp only [pure_except, Except.ok.injEq, Prod.mk.injEq] at h
              obtain ⟨rfl, rfl⟩ := h
              exact ⟨hi2.trans hi1, by omega⟩
            · exact Except.noConfusion h

theorem parse_selectors_loop_ne_oof (p : Cursor) :
    parse_selectors_loop p ≠ .error .outOfFuel :=
  parse_selectors_loop_fuel_ne_oof (by omega)

theorem parse_selectors_loop_ok {p : Cursor} {l : List Selector} {p' : Cursor}
    (h : parse_selectors_loop p = .ok (l, p')) :
    p'.input = p.input ∧ p.position ≤ p'.position :=
  parse_selectors_loop_fuel_ok h

theorem parse_selectors_ne_oof (p : Cursor) : parse_selectors p ≠ .error .outOfFuel := by
  intro h
  unfold parse_selectors at h
  simp only [bind, Except.bind] at h
  split at h
  · rename_i e heq
    injection h with h'
    rw [h'] at heq
    exact parse_selectors_loop_ne_oof p heq
  · rename_i x heq1
    obtain ⟨selectors, p1⟩ := x
    exact Except.noConfusion h

theorem parse_selectors_ok {p : Cursor} {l : List Selector} {p' : Cursor}
    (h : parse_selectors p = .ok (l, p')) :
    p'.input = p.input ∧ p.position ≤ p'.position := by
  unfold parse_selectors at h
  simp only [bind, Except.bind] at h
  split at h
  · exact Except.noConfusion h
  · rename_i x heq1
    obtain ⟨selectors, p1⟩ := x
    simp only [pure_except, Except.ok.injEq, Prod.mk.injEq] at h
    obtain ⟨rfl, rfl⟩ := h
    exact parse_selectors_loop_ok heq1

theorem parse_rule_ne_oof (p : Cursor) : parse_rule p ≠ .error .outOfFuel := by
  intro h
  unfold parse_rule at h
  simp only [bind, Except.bind] at h
  split at h
  · rename_i e heq
    injection h with h'
    rw [h'] at heq
    exact parse_selectors_ne_oof p heq
  · rename_i x heq1
    obtain ⟨selectors, p1⟩ := x
    split at h
    · rename_i e heq
      injection h with h'
      rw [h'] at heq
      exact parse_declarations_ne_oof p1 heq
    · rename_i y heq2
      obtain ⟨declarations, p2⟩ := y
      exact Except.noConfusion h

theorem parse_rule_ok {p : Cursor} {r : Rule} {p' : Cursor}
    (h : parse_rule p = .ok (r, p')) : p'.input = p.input ∧ rem p' < rem p := by
  unfold parse_rule at h
  simp only [bind, Except.bind] at h
  split at h
  · exact Except.noConfusion h
  · rename_i x heq1
    obtain ⟨selectors, p1⟩ := x
    split at h
    · exact Except.noConfusion h
    · rename_i y heq2
      obtain ⟨declarations, p2⟩ := y
      simp only [pure_except, Except.ok.injEq, Prod.mk.injEq] at h
      obtain ⟨rfl, rfl⟩ := h
      have hi1 : p1.input = p.input := (parse_selectors_ok heq1).1
      have hr1 : rem p1 ≤ rem p := rem_mono hi1 (parse_selectors_ok heq1).2
      have hi2 : p2.input = p1.input := (parse_declarations_ok heq2).1
      have hr2 : rem p2 < rem p1 := (parse_declarations_ok heq2).2
      exact ⟨hi2.trans hi1, by omega⟩

theorem parse_rules_fuel_ne_oof {fuel : Nat} {p : Cursor} (hf : rem p < fuel) :
    parse_rules_fuel fuel p ≠ .error .outOfFuel := by
  induction fuel generalizing p with
  | zero => omega
  | succ fuel ih =>
    intro h
    simp only [parse_rules_fuel, bind, Except.bind] at h
    split at h
    · rename_i e heq
      injection h with h'
      rw [h'] at heq
      exact consume_whitespace_ne_oof p heq
    · rename_i p1 heq1
      have hi1 : p1.input = p.input := (consume_whitespace_ok heq1).1
      have hr1 : rem p1 ≤ rem p := rem_mono hi1 (consume_whitespace_ok heq1).2
      split at h
      · exact Except.noConfusion h
      · split at h
        · rename_i e heq
          injection h with h'
          rw [h'] at heq
          exact parse_rule_ne_oof p1 heq
        · rename_i x heq2
          obtain ⟨r, p2⟩ := x
          have hi2 : p2.input = p1.input := (parse_rule_ok heq2).1
          have hr2 : rem p2 < rem p1 := (parse_rule_ok heq2).2
          split at h
          · rename_i e heq
            injection h with h'
            rw [h'] at heq
            exact ih (p := p2) (by omega) heq
          · exact Except.noConfusion h

theorem parse_rules_ne_oof (p : Cursor) : parse_rules p ≠ .error .outOfFuel :=
  parse_rules_fuel_ne_oof (by omega)

theorem css_parse_ne_oof (source : String) : parse source ≠ .error .outOfFuel := by
  intro h
  unfold parse at h
  simp only [bind, Except.bind] at h
  split at h
  · rename_i e heq
    injection h with h'
    rw [h'] at heq
    exact parse_rules_ne_oof _ heq
  · rename_i x heq1
    obtain ⟨rules, q⟩ := x
    exact Except.noConfusion h

theorem specificity_le_refl (x : Specificity) : specificity_le x x := by
  unfold specificity_le
  omega

theorem specificity_le_total (x y : Specificity) :
    specificity_le x y ∨ specificity_le y x := by
  unfold specificity_le
  omega

theorem specificity_le_trans {x y z : Specificity} (h1 : specificity_le x y)
    (h2 : specificity_le y z) : specificity_le x z := by
  unfold specificity_le at h1 h2 ⊢
  omega

theorem specificity_eq_of_le_le {x y : Specificity} (h1 : specificity_le x y)
    (h2 : specificity_le y x) : x = y := by
  unfold specificity_le at h1 h2
  rw [Prod.ext_iff, Prod.ext_iff]
  omega

theorem specificity_ne_of_not_le {x y : Specificity} (h : ¬ specificity_le x y) :
    x ≠ y := by
  intro hxy
  subst hxy
  exact h (specificity_le_refl x)

theorem perm_orderedInsertBySpec (a : Selector) (l : List Selector) :
    (orderedInsertBySpec a l).Perm (a :: l) := by
  induction l with
  | nil => exact List.Perm.refl _
  | cons b t ih =>
    unfold orderedInsertBySpec
    split
    · exact List.Perm.refl _
    · exact (List.Perm.cons b ih).trans (List.Perm.swap a b t)

theorem perm_sortBySpecDesc (l : List Selector) : (sortBySpecDesc l).Perm l := by
  induction l with
  | nil => exact List.Perm.refl _
  | cons a t ih =>
    unfold sortBySpecDesc
    exact (perm_orderedInsertBySpec a (sortBySpecDesc t)).trans (List.Perm.cons a ih)

theorem mem_orderedInsertBySpec {x a : Selector} {l : List Selector}
    (h : x ∈ orderedInsertBySpec a l) : x = a ∨ x ∈ l := by
  have := (perm_orderedInsertBySpec a l).mem_iff.mp h
  simpa using this

theorem sorted_orderedInsertBySpec (a : Selector) {l : List Selector}
    (h : l.Pairwise (fun x y => specificity_le y.specificity x.specificity)) :
    (orderedInsertBySpec a l).Pairwise
      (fun x y => specificity_le y.specificity x.specificity) := by
  induction l with
  | nil => simp [orderedInsertBySpec]
  | cons b t ih =>
    rw [List.pairwise_cons] at h
    obtain ⟨hb, ht⟩ := h
    unfold orderedInsertBySpec
    split
    · rename_i hba
      rw [List.pairwise_cons]
      refine ⟨?_, by rw [List.pairwise_cons]; exact ⟨hb, ht⟩⟩
      intro y hy
      rcases List.mem_cons.mp hy with rfl | hyt
      · exact hba
      · exact specificity_le_trans (hb y hyt) hba
    · rename_i hba
      rw [List.pairwise_cons]
      refine ⟨?_, ih ht⟩
      intro y hy
      rcases mem_orderedInsertBySpec hy with rfl | hyt
      · rcases specificity_le_total b.specificity y.specificity with hby | hyb
        · exact absurd hby hba
        · exact hyb
      · exact hb y hyt

theorem sorted_sortBySpecDesc (l : List Selector) :
    (sortBySpecDesc l).Pairwise (fun x y => specificity_le y.specificity x.specificity) := by
  induction l with
  | nil => simp [sortBySpecDesc]
  | cons a t ih =>
    unfold sortBySpecDesc
    exact sorted_orderedInsertBySpec a ih

theorem filter_orderedInsertBySpec_eq {a : Selector} {s : Specificity}
    (ha : a.specificity = s) (m : List Selector) :
    (orderedInsertBySpec a m).filter (fun x => decide (x.specificity = s)) =
      a :: m.filter (fun x => decide (x.specificity = s)) := by
  induction m with
  | nil =>
    simp [orderedInsertBySpec, List.filter_cons, ha]
  | cons b t ih =>
    unfold orderedInsertBySpec
    split
    · rename_i hba
      rw [List.filter_cons, if_pos (by simp [ha])]
    · rename_i hba
      have hbs : b.specificity ≠ s := by
        intro hb
        exact hba (hb ▸ ha ▸ specificity_le_refl s)
      rw [List.filter_cons, if_neg (by simp [hbs]), ih,
        List.filter_cons, if_neg (by simp [hbs])]

theorem filter_orderedInsertBySpec_ne {a : Selector} {s : Specificity}
    (ha : a.specificity ≠ s) (m : List Selector) :
    (orderedInsertBySpec a m).filter (fun x => decide (x.specificity = s)) =
      m.filter (fun x => decide (x.specificity = s)) := by
  induction m with
  | nil =>
    simp [orderedInsertBySpec, List.filter_cons, ha]
  | cons b t ih =>
    unfold orderedInsertBySpec
    split
    · rw [List.filter_cons, if_neg (by simp [ha])]
    · rw [List.filter_cons, ih, List.filter_cons]

theorem filter_sortBySpecDesc (l : List Selector) (s : Specificity) :
    (sortBySpecDesc l).filter (fun x => decide (x.specificity = s)) =
      l.filter (fun x => decide (x.specificity = s)) := by
  induction l with
  | nil => rfl
  | cons a t ih =>
    unfold sortBySpecDesc
    by_cases ha : a.specificity = s
    · rw [filter_orderedInsertBySpec_eq ha, ih, List.filter_cons, if_pos (by simp [ha])]
    · rw [filter_orderedInsertBySpec_ne ha, ih, List.filter_cons, if_neg (by simp [ha])]

end Css

theorem remAt_zero (l : List Char) : remAt l 0 = some l := by
  simp [remAt]

theorem remAt_append_left (l₁ m : List Char) :
    remAt (l₁ ++ m) (byteLen l₁) = some m := by
  induction l₁ with
  | nil => simp [byteLen, remAt_zero]
  | cons d t ih =>
    simp only [List.cons_append, byteLen]
    rw [remAt_comp (remAt_cons_self d (t ++ m)) (byteLen t)]
    exact ih

theorem consume_while_split {test : Char → Bool} {p : Cursor} {l₁ r : List Char} {c : Char}
    (hr : remAt p.input p.position = some (l₁ ++ c :: r))
    (h1 : ∀ x ∈ l₁, test x = true) (hc : test c = false) :
    consume_while test p = .ok (String.mk l₁, ⟨p.position + byteLen l₁, p.input⟩) := by
  have hb := remAt_some_byteLen hr
  have hfuel : l₁.length < rem p + 1 := by
    have h2 := byteLen_append l₁ (c :: r)
    have h3 := length_le_byteLen l₁
    have h4 := Char.utf8Size_pos c
    unfold rem
    simp only [byteLen] at h2
    omega
  unfold consume_while
  rw [consume_while_fuel_split hr h1 hc hfuel, map_except_ok]

theorem consume_whitespace_all {p : Cursor} {l : List Char}
    (hr : remAt p.input p.position = some l)
    (h1 : ∀ x ∈ l, rustIsWhitespace x = true)
    (hlast : ∀ c, l.getLast? = some c → c.utf8Size = 1) :
    consume_whitespace p = .ok ⟨p.position + byteLen l, p.input⟩ := by
  have hb := remAt_some_byteLen hr
  have hfuel : l.length < rem p + 1 := by
    have h3 := length_le_byteLen l
    unfold rem
    omega
  unfold consume_whitespace consume_while
  rw [consume_while_fuel_all_consumed hr h1 hlast hfuel, map_except_ok, map_except_ok]

theorem consume_whitespace_off_edge {p : Cursor} {l : List Char} {c : Char}
    (hr : remAt p.input p.position = some l)
    (h1 : ∀ x ∈ l, rustIsWhitespace x = true)
    (hlast : l.getLast? = some c) (hsize : 2 ≤ c.utf8Size) :
    consume_whitespace p = .error .sliceError := by
  have hb := remAt_some_byteLen hr
  have hfuel : l.length < rem p + 1 := by
    have h3 := length_le_byteLen l
    unfold rem
    omega
  unfold consume_whitespace consume_while
  rw [consume_while_fuel_off_edge hr h1 hlast hsize hfuel, map_except_error, map_except_error]

/-! Claim theorems. -/

/-- C1: the spec states that `advance` (the source's `consume_char`) returns
the character at the current offset and moves the offset past it by that
character's full encoded width, and that the offset is always either at a
character boundary or equal to the input length.  The code violates this when
the character is a multi-byte character that is the last character of the
input: `char_indices().next()` has no second element there, and the
`unwrap_or((1, ' '))` default advances the offset by exactly 1 byte.  On the
input consisting of the single two-byte character `é`, `consume_char` returns
the character but leaves the offset at 1, which is strictly inside the
character: not a boundary (`remAt` is `none`) and not the input length 2. -/
theorem c1_consume_char_trailing_multibyte_bug :
    consume_char ⟨0, "é".data⟩ = .ok ('é', ⟨1, "é".data⟩) ∧
    ('é').utf8Size = 2 ∧
    byteLen "é".data = 2 ∧
    remAt "é".data 1 = none :=
  ⟨rfl, rfl, rfl, rfl⟩

/-- C3: the specificity of a `Simple` selector is the triple (id presence as
0 or 1, number of class names, tag-name presence as 0 or 1); the order used by
the parser's sort is lexicographic with the id component most significant, so
an id-bearing selector outranks any selector without an id regardless of how
many classes the latter has, and any selector carrying a class outranks a bare
tag selector. -/
theorem c3_specificity_lex :
    (∀ s : Css.SimpleSelector,
      (Css.Selector.Simple s).specificity =
        ((if s.id.isSome then 1 else 0), s.«class».length,
          (if s.tag_name.isSome then 1 else 0))) ∧
    (∀ s1 s2 : Css.SimpleSelector, s1.id.isSome → s2.id = none →
      Css.specificity_lt (Css.Selector.Simple s2).specificity
        (Css.Selector.Simple s1).specificity) ∧
    (∀ s1 s2 : Css.SimpleSelector, s1.«class» ≠ [] → s2.id = none → s2.«class» = [] →
      Css.specificity_lt (Css.Selector.Simple s2).specificity
        (Css.Selector.Simple s1).specificity) := by
  refine ⟨?_, ?_, ?_⟩
  · intro s
    obtain ⟨tag, id, cls⟩ := s
    cases id <;> cases tag <;> simp [Css.Selector.specificity]
  · intro s1 s2 h1 h2
    obtain ⟨t1, i1, c1⟩ := s1
    obtain ⟨t2, i2, c2⟩ := s2
    cases i1 with
    | none => exact absurd h1 (by simp)
    | some i =>
      have h2' : i2 = none := h2
      subst h2'
      simp only [Css.Selector.specificity, Css.specificity_lt, Css.specificity_le,
        Option.toList_some, Option.toList_none, List.length_cons, List.length_nil,
        true_and, and_true, false_or, or_false]
      omega
  · intro s1 s2 hc1 h2 hc2
    obtain ⟨t1, i1, c1⟩ := s1
    obtain ⟨t2, i2, c2⟩ := s2
    have h2' : i2 = none := h2
    subst h2'
    have hc2' : c2 = [] := hc2
    subst hc2'
    have hc1' : c1 ≠ [] := hc1
    cases c1 with
    | nil => exact absurd rfl hc1'
    | cons a t =>
      cases i1 <;>
        simp only [Css.Selector.specificity, Css.specificity_lt, Css.specificity_le,
          Option.toList_some, Option.toList_none, List.length_cons, List.length_nil,
          true_and, and_true, false_or, or_false] <;>
        omega

/-- C3 witness: a selector with only an id outranks a selector with a tag name
and three classes, and a selector with one class outranks a bare tag
selector. -/
theorem c3_witness :
    Css.specificity_lt (Css.Selector.Simple ⟨some "div", none, ["a", "b", "c"]⟩).specificity
      (Css.Selector.Simple ⟨none, some "x", []⟩).specificity ∧
    Css.specificity_lt (Css.Selector.Simple ⟨some "div", none, []⟩).specificity
      (Css.Selector.Simple ⟨none, none, ["y"]⟩).specificity :=
  ⟨c3_specificity_lex.2.1 ⟨none, some "x", []⟩ ⟨some "div", none, ["a", "b", "c"]⟩ rfl rfl,
   c3_specificity_lex.2.2 ⟨none, none, ["y"]⟩ ⟨some "div", none, []⟩
     (by simp) rfl rfl⟩

/-- C6: both parsers terminate on every input: the fuel supplied by the
public wrappers (one more than the count of unconsumed bytes) is never
exhausted, because every loop iteration either consumes at least one byte or
observes end-of-input or a terminator.  Hence each call returns a complete
result or aborts with a genuine parse error — never the fuel-exhaustion
artifact of the embedding — including on unterminated inputs. -/
theorem c6_parsers_terminate (source : String) :
    Html.parse source ≠ .error .outOfFuel ∧ Css.parse source ≠ .error .outOfFuel :=
  ⟨Html.html_parse_ne_oof source, Css.css_parse_ne_oof source⟩

/-- C2: every selector list returned by `parse_selectors` is the stable
descending sort by specificity of the selectors in source (encounter) order:
it is a permutation of the loop's source-order list, pairwise sorted so every
earlier selector's specificity is ≥ every later one's, and for each
specificity value the subsequence with that exact specificity equals the
source-order subsequence — equal-specificity selectors keep their relative
source order. -/
theorem c2_parse_selectors_sorted_stable {p : Cursor} {sels : List Css.Selector}
    {p' : Cursor} (h : Css.parse_selectors p = .ok (sels, p')) :
    ∃ raw, Css.parse_selectors_loop p = .ok (raw, p') ∧
      sels.Perm raw ∧
      sels.Pairwise (fun x y => Css.specificity_le y.specificity x.specificity) ∧
      ∀ s : Css.Specificity,
        sels.filter (fun x => decide (x.specificity = s)) =
          raw.filter (fun x => decide (x.specificity = s)) := by
  cases hl : Css.parse_selectors_loop p with
  | error e =>
    unfold Css.parse_selectors at h
    rw [hl] at h
    exact Except.noConfusion h
  | ok x =>
    obtain ⟨raw, q⟩ := x
    unfold Css.parse_selectors at h
    rw [hl] at h
    simp only [ok_bind, pure_except, Except.ok.injEq, Prod.mk.injEq] at h
    obtain ⟨rfl, rfl⟩ := h
    exact ⟨raw, rfl, Css.perm_sortBySpecDesc raw, Css.sorted_sortBySpecDesc raw,
      fun s => Css.filter_sortBySpecDesc raw s⟩

/-- C2 witness: a concrete selector list (`div, #x` before a brace) on which
`parse_selectors` succeeds, instantiating the theorem. -/
theorem c2_witness :
    Css.parse_selectors ⟨0, "div, #x \x7b".data⟩ =
      .ok ([Css.Selector.Simple ⟨none, some "x", []⟩,
            Css.Selector.Simple ⟨some "div", none, []⟩], ⟨8, "div, #x \x7b".data⟩) ∧
    (∃ raw, Css.parse_selectors_loop ⟨0, "div, #x \x7b".data⟩ =
        .ok (raw, ⟨8, "div, #x \x7b".data⟩) ∧
      ([Css.Selector.Simple ⟨none, some "x", []⟩,
        Css.Selector.Simple ⟨some "div", none, []⟩] : List Css.Selector).Perm raw ∧
      ([Css.Selector.Simple ⟨none, some "x", []⟩,
        Css.Selector.Simple ⟨some "div", none, []⟩] : List Css.Selector).Pairwise
          (fun x y => Css.specificity_le y.specificity x.specificity) ∧
      ∀ s : Css.Specificity,
        ([Css.Selector.Simple ⟨none, some "x", []⟩,
          Css.Selector.Simple ⟨some "div", none, []⟩] : List Css.Selector).filter
            (fun x => decide (x.specificity = s)) =
          raw.filter (fun x => decide (x.specificity = s))) := by
  have h : Css.parse_selectors ⟨0, "div, #x \x7b".data⟩ =
      .ok ([Css.Selector.Simple ⟨none, some "x", []⟩,
            Css.Selector.Simple ⟨some "div", none, []⟩], ⟨8, "div, #x \x7b".data⟩) := rfl
  exact ⟨h, c2_parse_selectors_sorted_stable h⟩

/-- C4: when top-level parsing of the source succeeds, a single top-level node
is returned by `parse` itself unchanged, and two or more top-level nodes are
wrapped in a synthetic root element with tag name `html`, an empty attribute
map, and exactly those nodes, in source order, as children. -/
theorem c4_parse_root {source : String} {ns : List dom.Node} {p' : Cursor}
    (h : Html.parse_nodes ⟨0, source.data⟩ = .ok (ns, p')) :
    (∀ n, ns = [n] → Html.parse source = .ok n) ∧
    (2 ≤ ns.length → Html.parse source = .ok (dom.elem "html" {} ns)) := by
  constructor
  · rintro n rfl
    unfold Html.parse
    rw [h]
    rfl
  · intro hlen
    unfold Html.parse
    rw [h]
    simp only [ok_bind]
    cases ns with
    | nil => simp at hlen
    | cons a t =>
      cases t with
      | nil => simp at hlen
      | cons b u => rfl

/-- C4 witness: a single-element source is returned unchanged; a two-element
source is wrapped in the synthetic `html` root with both nodes in order. -/
theorem c4_witness :
    Html.parse "<a></a>" = .ok (dom.elem "a" {} []) ∧
    Html.parse "<a></a><b></b>" =
      .ok (dom.elem "html" {} [dom.elem "a" {} [], dom.elem "b" {} []]) := by
  have h1 : Html.parse_nodes ⟨0, "<a></a>".data⟩ =
      .ok ([dom.elem "a" {} []], ⟨7, "<a></a>".data⟩) := rfl
  have h2 : Html.parse_nodes ⟨0, "<a></a><b></b>".data⟩ =
      .ok ([dom.elem "a" {} [], dom.elem "b" {} []], ⟨14, "<a></a><b></b>".data⟩) := rfl
  exact ⟨(c4_parse_root h1).1 _ rfl, (c4_parse_root h2).2 (by simp)⟩

/-- C7: the declaration value `10px` parses to `Length 10 Px` (the exact
rational 10, i.e. the f32 10.0); the unit identifier is compared after ASCII
lowercasing against `"px"`, so the match is case-insensitive, and any
identifier that does not lowercase to `"px"` aborts with the UnrecognizedUnit
error — concretely, `width: 10em;` fails that way. -/
theorem c7_length_unit_px {p : Cursor} {id : String} {p' : Cursor}
    (h : Css.parse_identifier p = .ok (id, p')) :
    (Css.to_ascii_lowercase id = "px" → Css.parse_unit p = .ok (.Px, p')) ∧
    (Css.to_ascii_lowercase id ≠ "px" → Css.parse_unit p = .error .unrecognizedUnit) ∧
    Css.parse_value ⟨0, "10px".data⟩ = .ok (.Length 10 .Px, ⟨4, "10px".data⟩) ∧
    Css.parse_value ⟨0, "10PX".data⟩ = .ok (.Length 10 .Px, ⟨4, "10PX".data⟩) ∧
    Css.parse_declaration ⟨0, "width: 10em;".data⟩ = .error .unrecognizedUnit := by
  refine ⟨?_, ?_, rfl, rfl, rfl⟩
  · intro hpx
    unfold Css.parse_unit
    simp only [bind, Except.bind, h, hpx, if_true, pure_except]
  · intro hpx
    unfold Css.parse_unit
    simp only [bind, Except.bind, h, hpx, if_false, pure_except]

/-- C7 witness: the uppercase unit `PX` is accepted (case-insensitive match),
instantiating the theorem at a concrete identifier parse. -/
theorem c7_witness :
    Css.parse_identifier ⟨0, "PX".data⟩ = .ok ("PX", ⟨2, "PX".data⟩) ∧
    Css.parse_unit ⟨0, "PX".data⟩ = .ok (.Px, ⟨2, "PX".data⟩) := by
  have h : Css.parse_identifier ⟨0, "PX".data⟩ = .ok ("PX", ⟨2, "PX".data⟩) := rfl
  exact ⟨h, (c7_length_unit_px h).1 rfl⟩

/-- C8: `color: #ff0000;` parses to the color with r 255, g 0, b 0 and alpha
255: after `#`, three two-hex-digit pairs are parsed in base 16 into r, g and
b; malformed hex (a non-digit as in `gg`, or a `-` sign as in `-0`, which the
unsigned base-16 parse rejects) is the fatal InvalidNumericLiteral error; and
every color value `parse_color` can produce has alpha exactly 255. -/
theorem c8_hex_color {p : Cursor} {v : Css.Value} {p' : Cursor}
    (h : Css.parse_color p = .ok (v, p')) :
    (∃ r g b, v = .ColorValue ⟨r, g, b, 255⟩) ∧
    Css.parse_declaration ⟨0, "color: #ff0000;".data⟩ =
      .ok (⟨"color", .ColorValue ⟨255, 0, 0, 255⟩⟩, ⟨15, "color: #ff0000;".data⟩) ∧
    Css.parse_hex_pair ⟨0, "gg".data⟩ = .error .invalidNumericLiteral ∧
    Css.parse_hex_pair ⟨0, "-0".data⟩ = .error .invalidNumericLiteral := by
  refine ⟨?_, rfl, rfl, rfl⟩
  unfold Css.parse_color at h
  simp only [bind, Except.bind] at h
  split at h
  · exact Except.noConfusion h
  · rename_i x heq1
    obtain ⟨c, p1⟩ := x
    split at h
    · split at h
      · exact Except.noConfusion h
      · rename_i y heq2
        obtain ⟨r, p2⟩ := y
        split at h
        · exact Except.noConfusion h
        · rename_i z heq3
          obtain ⟨g, p3⟩ := z
          split at h
          · exact Except.noConfusion h
          · rename_i w heq4
            obtain ⟨b, p4⟩ := w
            simp only [pure_except, Except.ok.injEq, Prod.mk.injEq] at h
            obtain ⟨rfl, rfl⟩ := h
            exact ⟨r, g, b, rfl⟩
    · exact Except.noConfusion h

/-- C8 witness: a concrete color parse (`#102030`), instantiating the
alpha-is-255 clause of the theorem. -/
theorem c8_witness :
    Css.parse_color ⟨0, "#102030".data⟩ =
      .ok (.ColorValue ⟨16, 32, 48, 255⟩, ⟨7, "#102030".data⟩) ∧
    ∃ r g b, (Css.Value.ColorValue ⟨16, 32, 48, 255⟩ : Css.Value) =
      .ColorValue ⟨r, g, b, 255⟩ := by
  have h : Css.parse_color ⟨0, "#102030".data⟩ =
      .ok (.ColorValue ⟨16, 32, 48, 255⟩, ⟨7, "#102030".data⟩) := rfl
  exact ⟨h, (c8_hex_color h).1⟩

/-- C5: whenever `parse_element` has consumed an opening tag with name `tag`,
its attributes, the `>`, the children, and the `</` of the closing tag, and
the closing tag name parses to a different name, the element parse aborts
with the MismatchedTag error: it never substitutes a tag name, drops the
element, or returns a tree; concretely, `parse` on `<a></b>` is that error. -/
theorem c5_mismatched_tag {pn : Cursor → Except Err (List dom.Node × Cursor)}
    {p p1 p2 p3 p4 p5 p6 p7 p8 : Cursor} {tag tag2 : String}
    {attrs : dom.AttrMap} {kids : List dom.Node}
    (h1 : consume_char p = .ok ('<', p1))
    (h2 : Html.parse_tag_name p1 = .ok (tag, p2))
    (h3 : Html.parse_attributes p2 = .ok (attrs, p3))
    (h4 : consume_char p3 = .ok ('>', p4))
    (h5 : pn p4 = .ok (kids, p5))
    (h6 : consume_char p5 = .ok ('<', p6))
    (h7 : consume_char p6 = .ok ('/', p7))
    (h8 : Html.parse_tag_name p7 = .ok (tag2, p8))
    (h9 : tag2 ≠ tag) :
    Html.parse_element_core pn p = .error .mismatchedTag ∧
    Html.parse "<a></b>" = .error .mismatchedTag := by
  refine ⟨?_, rfl⟩
  unfold Html.parse_element_core
  simp only [bind, Except.bind, h1, h2, h3, h4, h5, h6, h7, h8, if_true, if_false, h9,
    if_neg h9]

/-- C5 witness: the concrete input `<a></b>` reaches the closing-tag check
with closing name `b` against opening name `a` and aborts with MismatchedTag,
instantiating every hypothesis of the theorem. -/
theorem c5_witness :
    Html.parse_element_core (Html.parse_nodes_fuel 5) ⟨0, "<a></b>".data⟩ =
      .error .mismatchedTag ∧
    Html.parse "<a></b>" = .error .mismatchedTag :=
  c5_mismatched_tag rfl rfl rfl rfl rfl rfl rfl rfl (by decide)

/-- C9: an attribute value's opening quote, read by `consume_char`, must be
`"` or `/` — any other character is a fatal error; with a valid opening quote
the value is exactly the characters before the first following occurrence of
that same character (which is then consumed as the closing quote); and any
successfully returned value contains no occurrence of its quote character. -/
theorem c9_attr_value_quotes {p : Cursor} {quote : Char} {p1 : Cursor}
    (h0 : consume_char p = .ok (quote, p1)) :
    ((quote ≠ '"' ∧ quote ≠ '/') →
      Html.parse_attr_value p = .error .unexpectedCharacter) ∧
    (∀ l₁ r, (quote = '"' ∨ quote = '/') →
      remAt p1.input p1.position = some (l₁ ++ quote :: r) →
      (∀ x ∈ l₁, x ≠ quote) →
      Html.parse_attr_value p =
        .ok (String.mk l₁, ⟨p1.position + byteLen l₁ + 1, p1.input⟩)) ∧
    (∀ v p2, Html.parse_attr_value p = .ok (v, p2) →
      (quote = '"' ∨ quote = '/') ∧ ∀ x ∈ v.data, x ≠ quote) := by
  refine ⟨?_, ?_, ?_⟩
  · intro hq
    unfold Html.parse_attr_value
    simp only [bind, Except.bind, h0]
    rw [if_neg (by intro hor; rcases hor with h' | h' <;> simp [h'] at hq)]
  · intro l₁ r hq hr h1
    have hq1 : quote.utf8Size = 1 := by rcases hq with rfl | rfl <;> rfl
    have hws : consume_while (fun c => decide (c ≠ quote)) p1 =
        .ok (String.mk l₁, ⟨p1.position + byteLen l₁, p1.input⟩) :=
      consume_while_split hr (fun x hx => decide_eq_true (h1 x hx)) (by simp)
    have hrend : remAt p1.input (p1.position + byteLen l₁) = some (quote :: r) := by
      rw [remAt_comp hr (byteLen l₁)]
      exact remAt_append_left l₁ (quote :: r)
    have hcc : consume_char (⟨p1.position + byteLen l₁, p1.input⟩ : Cursor) =
        .ok (quote, ⟨p1.position + byteLen l₁ + 1, p1.input⟩) := by
      cases r with
      | nil => exact consume_char_of_last hrend
      | cons d t =>
        have h' : consume_char (⟨p1.position + byteLen l₁, p1.input⟩ : Cursor) =
            .ok (quote, ⟨p1.position + byteLen l₁ + quote.utf8Size, p1.input⟩) :=
          consume_char_of_more hrend
        rw [hq1] at h'
        exact h'
    unfold Html.parse_attr_value
    simp only [bind, Except.bind, h0, hws, hcc]
    rw [if_pos hq]
    simp only [if_true]
    rfl
  · intro v p2 h
    unfold Html.parse_attr_value at h
    simp only [bind, Except.bind, h0] at h
    split at h
    · rename_i hq
      refine ⟨hq, ?_⟩
      split at h
      · exact Except.noConfusion h
      · rename_i y heq2
        obtain ⟨value, q2⟩ := y
        split at h
        · exact Except.noConfusion h
        · rename_i z heq3
          obtain ⟨c2, q3⟩ := z
          split at h
          · simp only [pure_except, Except.ok.injEq, Prod.mk.injEq] at h
            obtain ⟨rfl, rfl⟩ := h
            intro x hx
            have := consume_while_all heq2 x hx
            exact of_decide_eq_true this
          · exact Except.noConfusion h
    · exact Except.noConfusion h

/-- C9 witness: a double-quoted value `"ab"` parses to exactly `ab`, stopping
at the first closing quote, and a non-quote opening character (`q`) is a fatal
error — both by instantiating the theorem. -/
theorem c9_witness :
    Html.parse_attr_value ⟨0, "\"ab\"x".data⟩ = .ok ("ab", ⟨4, "\"ab\"x".data⟩) ∧
    Html.parse_attr_value ⟨0, "qab".data⟩ = .error .unexpectedCharacter := by
  have h0 : consume_char ⟨0, "\"ab\"x".data⟩ = .ok ('"', ⟨1, "\"ab\"x".data⟩) := rfl
  have h0' : consume_char ⟨0, "qab".data⟩ = .ok ('q', ⟨1, "qab".data⟩) := rfl
  refine ⟨?_, (c9_attr_value_quotes h0').1 (by decide)⟩
  have h := (c9_attr_value_quotes h0).2.1 ['a', 'b'] ['x'] (Or.inl rfl) rfl (by decide)
  exact h

/-- C10 counterexample: the claim asserts that any whitespace-only input
succeeds with a synthetic `html` element, but on the input consisting of the
single two-byte NO-BREAK SPACE character (U+00A0, a Rust whitespace
character), whitespace skipping advances the offset by only one byte into the
middle of the character, and the next slicing operation aborts: the parse
returns the boundary-panic error instead of any node. -/
theorem c10_counterexample :
    rustIsWhitespace ' ' = true ∧
    (' ').utf8Size = 2 ∧
    Html.parse " " = .error .sliceError :=
  ⟨rfl, rfl, rfl⟩

/-- C10 (amended): `parse_html` applied to the empty string, or to input
consisting only of whitespace characters whose last character is a single-byte
character, succeeds and returns an Element node with tag name `html`, an empty
attribute map, and an empty child list — the zero-top-level-node case takes
the same synthetic-root branch as the two-or-more case rather than failing.
(A whitespace-only input ending in a multi-byte character instead aborts with
the cursor slip shown in the counterexample.) -/
theorem c10_whitespace_only (source : String)
    (hws : ∀ c ∈ source.data, rustIsWhitespace c = true)
    (hlast : ∀ c, source.data.getLast? = some c → c.utf8Size = 1) :
    Html.parse source = .ok (dom.elem "html" {} []) := by
  have hr0 : remAt source.data 0 = some source.data := remAt_zero _
  have hcw : consume_whitespace (⟨0, source.data⟩ : Cursor) =
      .ok ⟨0 + byteLen source.data, source.data⟩ :=
    consume_whitespace_all hr0 hws hlast
  have hrend : remAt source.data (0 + byteLen source.data) = some [] := by
    rw [Nat.zero_add]
    exact remAt_byteLen source.data
  have hsw : starts_with (⟨0 + byteLen source.data, source.data⟩ : Cursor) ['<', '/'] =
      .ok false := by
    unfold starts_with
    rw [hrend]
    rfl
  have heof : eof (⟨0 + byteLen source.data, source.data⟩ : Cursor) = true := by
    simp [eof]
  have hnodes : Html.parse_nodes ⟨0, source.data⟩ =
      .ok ([], ⟨0 + byteLen source.data, source.data⟩) := by
    unfold Html.parse_nodes
    simp only [Html.parse_nodes_fuel, bind, Except.bind, hcw, hsw, heof, Bool.true_or,
      if_true]
    rfl
  unfold Html.parse
  rw [hnodes]
  rfl

/-- C10 witness: two ASCII spaces satisfy the amended hypotheses, and the
parse returns the empty synthetic `html` element. -/
theorem c10_witness : Html.parse "  " = .ok (dom.elem "html" {} []) :=
  c10_whitespace_only "  " (by decide)
    (fun c hc => by
      have hc' : some ' ' = some c := hc
      injection hc' with h
      rw [← h]
      rfl)

end Browser
